import Mathlib

/-!
A verification development for the `blog_ai_agent` repository.

The Python sources under `src/blog_agent/` are shallowly embedded as
executable Lean definitions:

* `firefox_history.normalize_url` (URL normalization, built on a model of
  `urllib.parse.urlparse` restricted to the components the function uses);
* `feeds.fetch_feed` / `feeds.fetch_all_feeds` (recency, engagement and
  count filters, aggregation sort), with the network and the XML parser
  treated as oracles whose outcome is an explicit input;
* `feeds._extract_summary`, `_extract_comments`, `_extract_likes`,
  `_parse_date` (field extraction);
* `storage.upsert_posts` / `storage.get_posts` over a list-of-rows model of
  the SQLite `posts` table.

Conventions:

* Python `str` values are `String` / `List Char`; only the ASCII fragment of
  case mapping (`str.lower`) and of the whitespace class is modelled, which
  covers every character class the embedded code branches on.
* timezone-aware `datetime` values are modelled as `Nat` microsecond
  timestamps measured from `datetime.min` (year 1), so `0` is the model of
  `datetime.min.replace(tzinfo=timezone.utc)`, the sentinel the code uses
  when sorting posts without a date.
* fallible extraction returns `Option`; a function that catches all its
  exceptions and returns a default is embedded as a total function.
-/

/-! ## Python character and string primitives -/

/-- Model of CPython `str.lower` on one character, restricted to ASCII
(the only case mapping the embedded code can depend on: URL schemes are
ASCII-validated before lowering). -/
def pyLowerChar (c : Char) : Char :=
  if 65 ≤ c.toNat ∧ c.toNat ≤ 90 then Char.ofNat (c.toNat + 32) else c

/-- `str.lower` over a list of characters. -/
def lowerChars (l : List Char) : List Char := l.map pyLowerChar

/-- `str.rstrip("/")`: remove every trailing `'/'`. -/
def rstripSlash (l : List Char) : List Char :=
  (l.reverse.dropWhile (· == '/')).reverse

/-- ASCII letter (Python `c.isascii() and c.isalpha()`). -/
def isAsciiAlpha (c : Char) : Bool :=
  (65 ≤ c.toNat && c.toNat ≤ 90) || (97 ≤ c.toNat && c.toNat ≤ 122)

/-- ASCII digit. -/
def isAsciiDigit (c : Char) : Bool := 48 ≤ c.toNat && c.toNat ≤ 57

/-- `urllib.parse.scheme_chars`: ASCII letters, digits, `+`, `-`, `.`. -/
def isSchemeChar (c : Char) : Bool :=
  isAsciiAlpha c || isAsciiDigit c || c == '+' || c == '-' || c == '.'

/-! ## `urllib.parse.urlparse`, restricted to scheme/netloc/path

`firefox_history.normalize_url` only reads `parsed.scheme`, `parsed.netloc`
and `parsed.path`, so the embedding computes exactly those three components,
following CPython's `urlsplit` (leading C0-control/space lstrip, removal of
tab/CR/LF, scheme validation, netloc after `//`, fragment then query split)
and `urlparse`'s extra `;`-parameter split on the path for schemes in
`uses_params`. -/

structure UrlParts where
  scheme : List Char
  netloc : List Char
  path : List Char
deriving Repr, DecidableEq

/-- A character removed everywhere by `urlsplit` (`\t`, `\r`, `\n`,
CPython's `_UNSAFE_URL_BYTES_TO_REMOVE`). -/
def isUnsafeUrlChar (c : Char) : Bool := c == '\t' || c == '\r' || c == '\n'

/-- A character stripped from the front by `urlsplit`
(`_WHATWG_C0_CONTROL_OR_SPACE`: code points `0x00`–`0x20`). -/
def isC0OrSpace (c : Char) : Bool := c.toNat ≤ 32

/-- The pre-colon prefix qualifies as a scheme: nonempty, leading ASCII
letter, all characters in `scheme_chars`. -/
def validScheme (pre : List Char) : Bool :=
  match pre with
  | [] => false
  | c :: _ => isAsciiAlpha c && pre.all isSchemeChar

/-- Scheme extraction of `urlsplit`: split at the first `:` (`url.find(':')`,
present iff the `dropWhile` below is nonempty, at a positive index iff the
`takeWhile` is nonempty) when the prefix before it is a valid scheme; the
scheme is lowercased. -/
def splitScheme (l : List Char) : List Char × List Char :=
  let pre := l.takeWhile (· ≠ ':')
  let post := l.dropWhile (· ≠ ':')
  if post ≠ [] ∧ validScheme pre then (lowerChars pre, post.tail) else ([], l)

/-- A character ending the netloc (`urllib.parse._splitnetloc` stops at the
first of `/`, `?`, `#`). -/
def isNetlocEnd (c : Char) : Bool := c == '/' || c == '?' || c == '#'

/-- Netloc extraction of `urlsplit`: only when the remainder starts with
`//` (`url[:2] == '//'`); the netloc runs to the first `/`, `?` or `#`. -/
def splitNetloc (l : List Char) : List Char × List Char :=
  if l.take 2 = ['/', '/'] then
    let rest := l.drop 2
    (rest.takeWhile (fun c => !isNetlocEnd c), rest.dropWhile (fun c => !isNetlocEnd c))
  else ([], l)

/-- Fragment and query removal: `urlsplit` splits at the first `#`, then at
the first `?` of what is left, and the path is what precedes both. -/
def dropFragmentQuery (l : List Char) : List Char :=
  l.takeWhile (fun c => !(c == '#' || c == '?'))

/-- `urllib.parse.uses_params`: schemes (as lowercase character lists) whose
path gets a `;`-parameter split in `urlparse`. -/
def usesParams : List (List Char) :=
  [[], "ftp".data, "hdl".data, "prospero".data, "http".data, "imap".data,
   "https".data, "shttp".data, "rtsp".data, "rtspu".data, "sip".data,
   "sips".data, "mms".data, "sftp".data, "tel".data]

/-- `urllib.parse._splitparams` on a path already known to contain `;`:
if the path contains `/`, drop from the first `;` of the final segment (no
`;` there leaves the path unchanged); otherwise drop from the first `;`. -/
def splitParamsPath (p : List Char) : List Char :=
  if '/' ∈ p then
    let pre := (p.reverse.dropWhile (· ≠ '/')).reverse
    let seg := (p.reverse.takeWhile (· ≠ '/')).reverse
    if ';' ∈ seg then pre ++ seg.takeWhile (· ≠ ';') else p
  else
    p.takeWhile (· ≠ ';')

/-- `urllib.parse.urlparse url`, restricted to the `(scheme, netloc, path)`
projection used by `normalize_url`. -/
def urlparseSNP (url : List Char) : UrlParts :=
  let u1 := (url.dropWhile isC0OrSpace).filter (fun c => !isUnsafeUrlChar c)
  let sr := splitScheme u1
  let nr := splitNetloc sr.2
  let path0 := dropFragmentQuery nr.2
  let path := if sr.1 ∈ usesParams ∧ ';' ∈ path0 then splitParamsPath path0 else path0
  ⟨sr.1, nr.1, path⟩

/-- `firefox_history.normalize_url`:
`f"{parsed.scheme}://{parsed.netloc}{parsed.path}".rstrip("/").lower()`. -/
def normalize_url (url : String) : String :=
  let p := urlparseSNP url.data
  ⟨lowerChars (rstripSlash (p.scheme ++ ':' :: '/' :: '/' :: (p.netloc ++ p.path)))⟩

-- Sanity checks against the observed behaviour of the Python function.
example : normalize_url "https://example.com/post" = "https://example.com/post" := by rfl
example : normalize_url "https://example.com/post/" = "https://example.com/post" := by rfl
example : normalize_url "https://example.com/post?ref=twitter#comments" = "https://example.com/post" := by rfl
example : normalize_url "HTTPS://EXAMPLE.COM/Post" = "https://example.com/post" := by rfl
example : normalize_url "example.com" = "://example.com" := by rfl
example : normalize_url "://example.com" = "://://example.com" := by rfl
example : normalize_url "http://a/b;x" = "http://a/b" := by rfl
example : normalize_url "http://a/b;x/" = "http://a/b;x" := by rfl
example : normalize_url "http://a/b;x/c" = "http://a/b;x/c" := by rfl
example : normalize_url "foo:bar" = "foo://bar" := by rfl
example : normalize_url "http://" = "http:" := by rfl
example : normalize_url "http://:@x/y" = "http://:@x/y" := by rfl
example : normalize_url "http://a:80/P" = "http://a:80/p" := by rfl
example : normalize_url "tel:123;ext=4" = "tel://123" := by rfl

/-! ## Facts about the character and string primitives -/

theorem char_toNat_ofNat (n : Nat) (h : Nat.isValidChar n) : (Char.ofNat n).toNat = n := by
  simp only [Char.ofNat, h, dif_pos, Char.toNat, Char.ofNatAux]
  simp [UInt32.toNat, UInt32.ofNatCore]

theorem char_eq_of_toNat {a b : Char} (h : a.toNat = b.toNat) : a = b := by
  apply Char.ext
  apply UInt32.toNat.inj h

theorem char_beq_iff_toNat {a b : Char} : (a == b) = true ↔ a.toNat = b.toNat := by
  constructor
  · intro h
    exact congrArg Char.toNat (eq_of_beq h)
  · intro h
    rw [char_eq_of_toNat h]
    exact beq_self_eq_true b

theorem pyLowerChar_toNat (c : Char) :
    (pyLowerChar c).toNat =
      if 65 ≤ c.toNat ∧ c.toNat ≤ 90 then c.toNat + 32 else c.toNat := by
  unfold pyLowerChar
  split
  case isTrue h =>
    apply char_toNat_ofNat
    exact Or.inl (by omega)
  case isFalse h =>
    rfl

theorem pyLowerChar_idem (c : Char) : pyLowerChar (pyLowerChar c) = pyLowerChar c := by
  apply char_eq_of_toNat
  rw [pyLowerChar_toNat, pyLowerChar_toNat c]
  by_cases h : 65 ≤ c.toNat ∧ c.toNat ≤ 90
  all_goals simp [h]
  all_goals omega

theorem lowerChars_idem (l : List Char) : lowerChars (lowerChars l) = lowerChars l := by
  unfold lowerChars
  rw [List.map_map]
  apply List.map_congr_left
  intro c _
  exact pyLowerChar_idem c

/-- `pyLowerChar` moves nothing onto or off a character below code point 65;
all the URL delimiters the parser branches on are such characters. -/
theorem pyLowerChar_eq_low {c t : Char} (ht : t.toNat < 65) : pyLowerChar c = t ↔ c = t := by
  constructor
  · intro h
    have htn := congrArg Char.toNat h
    rw [pyLowerChar_toNat] at htn
    by_cases hc : 65 ≤ c.toNat ∧ c.toNat ≤ 90
    · rw [if_pos hc] at htn; omega
    · rw [if_neg hc] at htn; exact char_eq_of_toNat htn
  · intro h
    subst h
    unfold pyLowerChar
    rw [if_neg (by omega)]

theorem pyLowerChar_beq_low {c t : Char} (ht : t.toNat < 65) :
    (pyLowerChar c == t) = (c == t) := by
  by_cases h : c = t
  · subst h
    rw [(pyLowerChar_eq_low ht).mpr rfl]
  · have h2 : ¬ pyLowerChar c = t := fun hx => h ((pyLowerChar_eq_low ht).mp hx)
    simp [h, h2]

theorem isAsciiAlpha_pyLowerChar {c : Char} (h : isAsciiAlpha c = true) :
    isAsciiAlpha (pyLowerChar c) = true := by
  unfold isAsciiAlpha at h ⊢
  rw [pyLowerChar_toNat]
  simp only [Bool.or_eq_true, decide_eq_true_eq, Bool.and_eq_true] at h ⊢
  by_cases hc : 65 ≤ c.toNat ∧ c.toNat ≤ 90
  all_goals simp [hc]
  all_goals omega

/-- Every scheme character has code point at least 43 (so it is neither a
C0 control, a space, a tab/CR/LF, nor a `:`). -/
theorem isSchemeChar_toNat {c : Char} (h : isSchemeChar c = true) :
    43 ≤ c.toNat ∧ c.toNat ≠ 58 ∧ c.toNat ≠ 47 := by
  unfold isSchemeChar isAsciiAlpha isAsciiDigit at h
  simp only [Bool.or_eq_true, Bool.and_eq_true, decide_eq_true_eq, char_beq_iff_toNat] at h
  have h43 : ('+' : Char).toNat = 43 := by decide
  have h45 : ('-' : Char).toNat = 45 := by decide
  have h46 : ('.' : Char).toNat = 46 := by decide
  rw [h43, h45, h46] at h
  omega

theorem isSchemeChar_pyLowerChar {c : Char} (h : isSchemeChar c = true) :
    isSchemeChar (pyLowerChar c) = true := by
  by_cases ha : isAsciiAlpha c = true
  · unfold isSchemeChar
    simp [isAsciiAlpha_pyLowerChar ha]
  · have hfix : pyLowerChar c = c := by
      unfold pyLowerChar
      rw [if_neg ?hn]
      case hn =>
        intro hcn
        apply ha
        unfold isAsciiAlpha
        simp only [Bool.or_eq_true, Bool.and_eq_true, decide_eq_true_eq]
        exact Or.inl ⟨hcn.1, hcn.2⟩
    rw [hfix]
    exact h

theorem validScheme_all {s : List Char} (h : validScheme s = true) :
    ∀ c ∈ s, isSchemeChar c = true := by
  match s with
  | [] => simp [validScheme] at h
  | c :: t =>
    unfold validScheme at h
    simp only [Bool.and_eq_true, List.all_eq_true] at h
    exact h.2

theorem validScheme_lowerChars {s : List Char} (h : validScheme s = true) :
    validScheme (lowerChars s) = true := by
  match s with
  | [] => simp [validScheme] at h
  | c :: t =>
    unfold validScheme at h ⊢
    simp only [Bool.and_eq_true, List.all_eq_true] at h
    show (isAsciiAlpha (pyLowerChar c) && (lowerChars (c :: t)).all isSchemeChar) = true
    simp only [Bool.and_eq_true, List.all_eq_true]
    refine ⟨isAsciiAlpha_pyLowerChar h.1, ?_⟩
    intro x hx
    unfold lowerChars at hx
    obtain ⟨y, hy, rfl⟩ := List.mem_map.mp hx
    exact isSchemeChar_pyLowerChar (h.2 y hy)

theorem colon_not_mem_of_validScheme {s : List Char} (h : validScheme s = true) : ':' ∉ s := by
  intro hmem
  have := isSchemeChar_toNat (validScheme_all h ':' hmem)
  have h58 : (':' : Char).toNat = 58 := by decide
  omega

/-! ### `rstripSlash`, `takeWhile` and `dropWhile` support lemmas -/

theorem head_dropWhile_false {p : Char → Bool} {l t : List Char} {c : Char}
    (h : l.dropWhile p = c :: t) : p c = false := by
  induction l with
  | nil => simp at h
  | cons a l ih =>
    rw [List.dropWhile_cons] at h
    by_cases hp : p a = true
    · rw [if_pos hp] at h
      exact ih h
    · rw [if_neg hp] at h
      cases h
      simpa using hp

theorem mem_dropWhile {p : Char → Bool} {l : List Char} {c : Char}
    (h : c ∈ l.dropWhile p) : c ∈ l :=
  (List.dropWhile_sublist p).mem h

theorem mem_takeWhile {p : Char → Bool} {l : List Char} {c : Char}
    (h : c ∈ l.takeWhile p) : c ∈ l :=
  (List.takeWhile_sublist p).mem h

theorem takeWhile_append_all {p : Char → Bool} {a : List Char} (b : List Char)
    (h : ∀ c ∈ a, p c = true) : (a ++ b).takeWhile p = a ++ b.takeWhile p := by
  rw [List.takeWhile_append]
  rw [List.takeWhile_eq_self_iff.mpr h]
  simp

theorem dropWhile_append_all {p : Char → Bool} {a : List Char} (b : List Char)
    (h : ∀ c ∈ a, p c = true) : (a ++ b).dropWhile p = b.dropWhile p := by
  rw [List.dropWhile_append]
  rw [List.dropWhile_eq_nil_iff.mpr h]
  simp

theorem mem_rstripSlash {l : List Char} {c : Char} (h : c ∈ rstripSlash l) : c ∈ l := by
  unfold rstripSlash at h
  rw [List.mem_reverse] at h
  exact List.mem_reverse.mp (mem_dropWhile h)

theorem rstripSlash_append_cons {c : Char} (hc : c ≠ '/') (a b : List Char) :
    rstripSlash (a ++ c :: b) = a ++ c :: rstripSlash b := by
  unfold rstripSlash
  rw [List.reverse_append, List.reverse_cons, List.append_assoc, List.singleton_append]
  rw [List.dropWhile_append]
  by_cases hb : (b.reverse.dropWhile (· == '/')) = []
  · rw [hb]
    rw [if_pos (show ([] : List Char).isEmpty = true from rfl)]
    rw [List.dropWhile_cons_of_neg (by simpa using hc)]
    simp
  · rw [if_neg (by simpa using hb)]
    rw [List.reverse_append]
    simp

theorem rstripSlash_eq_nil_iff {l : List Char} :
    rstripSlash l = [] ↔ ∀ c ∈ l, c = '/' := by
  unfold rstripSlash
  rw [List.reverse_eq_nil_iff, List.dropWhile_eq_nil_iff]
  constructor
  · intro h c hc
    simpa using h c (List.mem_reverse.mpr hc)
  · intro h c hc
    simpa using h c (List.mem_reverse.mp hc)

theorem rstripSlash_slash_cons {v : List Char} (h : rstripSlash v ≠ []) :
    rstripSlash ('/' :: '/' :: v) = '/' :: '/' :: rstripSlash v := by
  unfold rstripSlash at h ⊢
  have hv : v.reverse.dropWhile (· == '/') ≠ [] := by
    intro hx
    exact h (by rw [hx]; rfl)
  rw [show ('/' :: '/' :: v).reverse = v.reverse ++ ['/', '/'] by simp]
  rw [List.dropWhile_append, if_neg (by simpa using hv)]
  rw [List.reverse_append]
  simp

theorem rstripSlash_slash_nil {v : List Char} (h : rstripSlash v = []) :
    rstripSlash ('/' :: '/' :: v) = [] := by
  rw [rstripSlash_eq_nil_iff] at h ⊢
  intro c hc
  simp only [List.mem_cons] at hc
  rcases hc with rfl | rfl | hc
  · rfl
  · rfl
  · exact h c hc

theorem rstripSlash_getLast {l : List Char} {c : Char}
    (h : (rstripSlash l).getLast? = some c) : c ≠ '/' := by
  unfold rstripSlash at h
  rw [List.getLast?_eq_head?_reverse, List.reverse_reverse] at h
  cases hd : l.reverse.dropWhile (· == '/') with
  | nil => rw [hd] at h; simp at h
  | cons x t =>
    rw [hd] at h
    have := head_dropWhile_false hd
    cases h
    simpa using this

theorem rstripSlash_eq_self {l : List Char}
    (h : ∀ c, l.getLast? = some c → c ≠ '/') : rstripSlash l = l := by
  unfold rstripSlash
  cases hr : l.reverse with
  | nil =>
    rw [List.reverse_eq_nil_iff] at hr
    simp [hr]
  | cons x t =>
    have hx : l.getLast? = some x := by
      rw [List.getLast?_eq_head?_reverse, hr]
      rfl
    rw [List.dropWhile_cons_of_neg (by simpa using h x hx)]
    rw [← hr, List.reverse_reverse]

/-! ## Claim C7: the spec's normalization rule versus the code -/

theorem lowerChars_rstripSlash (l : List Char) :
    lowerChars (rstripSlash l) = rstripSlash (lowerChars l) := by
  have hpred : ((· == '/') ∘ pyLowerChar) = (fun c : Char => c == '/') := by
    funext c
    simp only [Function.comp_apply]
    exact pyLowerChar_beq_low (by decide)
  show List.map pyLowerChar ((l.reverse.dropWhile (· == '/')).reverse)
      = ((List.map pyLowerChar l).reverse.dropWhile (· == '/')).reverse
  rw [← List.map_reverse, List.dropWhile_map, hpred, List.map_reverse]

/-- Lowercasing distributes over the `scheme://netlocpath` assembly. -/
theorem lowerChars_build (s n p : List Char) :
    lowerChars (s ++ ':' :: '/' :: '/' :: (n ++ p)) =
    lowerChars s ++ ':' :: '/' :: '/' :: (lowerChars n ++ lowerChars p) := by
  unfold lowerChars
  simp only [List.map_append, List.map_cons]
  rw [show pyLowerChar ':' = ':' from by decide, show pyLowerChar '/' = '/' from by decide]

/-- Remove exactly one trailing slash, as the spec's normalization rule
("strip a single trailing slash") reads. -/
def stripOneTrailingSlash (l : List Char) : List Char :=
  match l.reverse with
  | '/' :: r => r.reverse
  | _ => l

/-- The URL normalization rule exactly as the specification words it:
lowercase only the scheme and the host, keep the path (case preserved),
discard query string and fragment, strip exactly one trailing slash. -/
def normalize_url_claim (url : String) : String :=
  let p := urlparseSNP url.data
  ⟨stripOneTrailingSlash
      (lowerChars p.scheme ++ ':' :: '/' :: '/' :: (lowerChars p.netloc ++ p.path))⟩

/-- Claim C7 counterexample: the code lowercases the *path* as well and
strips *every* trailing slash, so on `https://example.com/Post//` it returns
`https://example.com/post` where the spec's rule returns
`https://example.com/Post/`. -/
theorem normalize_url_differs_from_claim :
    normalize_url "https://example.com/Post//"
      ≠ normalize_url_claim "https://example.com/Post//" := by
  decide

-- The two disagreements pinned down individually.
example : normalize_url "https://example.com/Post//" = "https://example.com/post" := by rfl
example : normalize_url_claim "https://example.com/Post//" = "https://example.com/Post/" := by rfl

/-- The normalization rule as the code actually implements it (the amended
claim): lowercase the scheme, the host *and the path*, discard query string
and fragment, and strip *all* trailing slashes. -/
def normalize_url_amended (url : String) : String :=
  let p := urlparseSNP url.data
  ⟨rstripSlash
      (lowerChars p.scheme ++ ':' :: '/' :: '/' :: (lowerChars p.netloc ++ lowerChars p.path))⟩

/-- Claim C7, amended: for every URL string, `normalize_url` agrees with the
rule that lowercases scheme, host and path, keeps the (lowercased) path,
discards query and fragment, and strips all trailing slashes. -/
theorem normalize_url_eq_amended (url : String) :
    normalize_url url = normalize_url_amended url := by
  show String.mk (lowerChars (rstripSlash ((urlparseSNP url.data).scheme ++ ':' :: '/' :: '/' ::
        ((urlparseSNP url.data).netloc ++ (urlparseSNP url.data).path))))
    = String.mk (rstripSlash (lowerChars (urlparseSNP url.data).scheme ++ ':' :: '/' :: '/' ::
        (lowerChars (urlparseSNP url.data).netloc ++ lowerChars (urlparseSNP url.data).path)))
  rw [lowerChars_rstripSlash, lowerChars_build]

/-! ## Claim C8: idempotence of URL normalization -/

theorem splitScheme_eq (l : List Char) :
    splitScheme l = if l.dropWhile (· ≠ ':') ≠ [] ∧ validScheme (l.takeWhile (· ≠ ':'))
      then (lowerChars (l.takeWhile (· ≠ ':')), (l.dropWhile (· ≠ ':')).tail)
      else ([], l) := rfl

theorem splitNetloc_eq (l : List Char) :
    splitNetloc l = if l.take 2 = ['/', '/']
      then ((l.drop 2).takeWhile (fun c => !isNetlocEnd c),
            (l.drop 2).dropWhile (fun c => !isNetlocEnd c))
      else ([], l) := rfl

theorem urlparseSNP_eq (url : List Char) :
    urlparseSNP url =
      ⟨(splitScheme ((url.dropWhile isC0OrSpace).filter (fun c => !isUnsafeUrlChar c))).1,
       (splitNetloc (splitScheme
          ((url.dropWhile isC0OrSpace).filter (fun c => !isUnsafeUrlChar c))).2).1,
       if (splitScheme ((url.dropWhile isC0OrSpace).filter (fun c => !isUnsafeUrlChar c))).1
            ∈ usesParams
          ∧ ';' ∈ dropFragmentQuery (splitNetloc (splitScheme
              ((url.dropWhile isC0OrSpace).filter (fun c => !isUnsafeUrlChar c))).2).2
       then splitParamsPath (dropFragmentQuery (splitNetloc (splitScheme
              ((url.dropWhile isC0OrSpace).filter (fun c => !isUnsafeUrlChar c))).2).2)
       else dropFragmentQuery (splitNetloc (splitScheme
              ((url.dropWhile isC0OrSpace).filter (fun c => !isUnsafeUrlChar c))).2).2⟩ := rfl

theorem schemeChar_safe {c : Char} (h : isSchemeChar c = true) :
    isUnsafeUrlChar c = false := by
  have hn := isSchemeChar_toNat h
  rw [Bool.eq_false_iff]
  intro hx
  unfold isUnsafeUrlChar at hx
  simp only [Bool.or_eq_true, char_beq_iff_toNat] at hx
  have h1 : ('\t' : Char).toNat = 9 := by decide
  have h2 : ('\r' : Char).toNat = 13 := by decide
  have h3 : ('\n' : Char).toNat = 10 := by decide
  rw [h1, h2, h3] at hx
  omega

theorem isUnsafe_pyLowerChar (c : Char) :
    isUnsafeUrlChar (pyLowerChar c) = isUnsafeUrlChar c := by
  unfold isUnsafeUrlChar
  rw [pyLowerChar_beq_low (by decide), pyLowerChar_beq_low (by decide),
      pyLowerChar_beq_low (by decide)]

theorem alpha_not_c0 {c : Char} (h : isAsciiAlpha c = true) : isC0OrSpace c = false := by
  unfold isAsciiAlpha at h
  unfold isC0OrSpace
  simp only [Bool.or_eq_true, Bool.and_eq_true, decide_eq_true_eq] at h
  simp only [decide_eq_false_iff_not]
  rcases h with ⟨h1, h2⟩ | ⟨h1, h2⟩ <;> omega

theorem validScheme_head {s0 : Char} {s' : List Char}
    (h : validScheme (s0 :: s') = true) : isAsciiAlpha s0 = true := by
  unfold validScheme at h
  simp only [Bool.and_eq_true] at h
  exact h.1

theorem splitScheme_build {s : List Char} (hs : validScheme s = true) (tail : List Char) :
    splitScheme (s ++ ':' :: tail) = (lowerChars s, tail) := by
  have hall : ∀ c ∈ s, (decide (c ≠ ':')) = true := by
    intro c hc
    have hn := isSchemeChar_toNat (validScheme_all hs c hc)
    have h58 : (':' : Char).toNat = 58 := by decide
    simp only [decide_eq_true_eq]
    intro hx
    rw [hx, h58] at hn
    omega
  rw [splitScheme_eq]
  rw [takeWhile_append_all _ hall, dropWhile_append_all _ hall]
  rw [List.takeWhile_cons_of_neg (by simp), List.dropWhile_cons_of_neg (by simp)]
  rw [List.append_nil]
  rw [if_pos ⟨List.cons_ne_nil _ _, hs⟩]
  rfl

theorem splitScheme_fst_valid {l : List Char} (hne : (splitScheme l).1 ≠ []) :
    validScheme (splitScheme l).1 = true ∧ lowerChars (splitScheme l).1 = (splitScheme l).1 := by
  rw [splitScheme_eq] at hne ⊢
  by_cases hc : l.dropWhile (· ≠ ':') ≠ [] ∧ validScheme (l.takeWhile (· ≠ ':'))
  · rw [if_pos hc] at hne ⊢
    exact ⟨validScheme_lowerChars hc.2, lowerChars_idem _⟩
  · rw [if_neg hc] at hne
    simp at hne

theorem mem_splitScheme_snd {l : List Char} {c : Char}
    (h : c ∈ (splitScheme l).2) : c ∈ l := by
  rw [splitScheme_eq] at h
  split at h
  · exact mem_dropWhile (List.tail_sublist _ |>.mem h)
  · exact h

theorem mem_splitNetloc_fst {l : List Char} {c : Char} (h : c ∈ (splitNetloc l).1) :
    c ∈ l ∧ isNetlocEnd c = false := by
  rw [splitNetloc_eq] at h
  split at h
  · refine ⟨(List.drop_sublist 2 l).mem (mem_takeWhile h), ?_⟩
    have := List.mem_takeWhile_imp h
    simpa using this
  · simp at h

theorem mem_splitNetloc_snd {l : List Char} {c : Char} (h : c ∈ (splitNetloc l).2) : c ∈ l := by
  rw [splitNetloc_eq] at h
  split at h
  · exact (List.drop_sublist 2 l).mem (mem_dropWhile h)
  · exact h

theorem mem_dropFragmentQuery {l : List Char} {c : Char} (h : c ∈ dropFragmentQuery l) :
    c ∈ l ∧ (c == '#' || c == '?') = false := by
  unfold dropFragmentQuery at h
  refine ⟨mem_takeWhile h, ?_⟩
  have := List.mem_takeWhile_imp h
  simpa using this

theorem splitParamsPath_eq (p : List Char) :
    splitParamsPath p = if '/' ∈ p then
        (if ';' ∈ (p.reverse.takeWhile (· ≠ '/')).reverse then
          (p.reverse.dropWhile (· ≠ '/')).reverse
            ++ ((p.reverse.takeWhile (· ≠ '/')).reverse).takeWhile (· ≠ ';')
        else p)
      else p.takeWhile (· ≠ ';') := rfl

theorem mem_splitParamsPath {p : List Char} {c : Char} (h : c ∈ splitParamsPath p) : c ∈ p := by
  rw [splitParamsPath_eq] at h
  split at h
  · split at h
    · rcases List.mem_append.mp h with h1 | h1
      · rw [List.mem_reverse] at h1
        exact List.mem_reverse.mp (mem_dropWhile h1)
      · have := mem_takeWhile h1
        rw [List.mem_reverse] at this
        exact List.mem_reverse.mp (mem_takeWhile this)
    · exact h
  · exact mem_takeWhile h

/-- Key step for the amended idempotence claim: a string assembled as
`scheme://netlocpath` from a valid already-lowercase scheme, a netloc free
of `/?#`, and a path free of `#?`, with no tab/CR/LF anywhere, re-normalizes
to itself provided the normalized string contains no `;`. -/
theorem normalize_idem_core (s n p0 : List Char)
    (hvalid : validScheme s = true) (hlow : lowerChars s = s)
    (hsafen : ∀ c ∈ n, isUnsafeUrlChar c = false)
    (hsafep : ∀ c ∈ p0, isUnsafeUrlChar c = false)
    (hnet : ∀ c ∈ n, isNetlocEnd c = false)
    (hfrag : ∀ c ∈ p0, (c == '#' || c == '?') = false)
    (hsemi : ';' ∉ lowerChars (rstripSlash (s ++ ':' :: '/' :: '/' :: (n ++ p0)))) :
    normalize_url ⟨lowerChars (rstripSlash (s ++ ':' :: '/' :: '/' :: (n ++ p0)))⟩
      = ⟨lowerChars (rstripSlash (s ++ ':' :: '/' :: '/' :: (n ++ p0)))⟩ := by
  have hlow' : List.map pyLowerChar s = s := hlow
  have hschars := validScheme_all hvalid
  have hsafes : ∀ c ∈ s, isUnsafeUrlChar c = false := fun c hc => schemeChar_safe (hschars c hc)
  have hsplit : rstripSlash (s ++ ':' :: '/' :: '/' :: (n ++ p0))
      = s ++ ':' :: rstripSlash ('/' :: '/' :: (n ++ p0)) :=
    rstripSlash_append_cons (by decide) s _
  obtain ⟨s0, s', hs0⟩ : ∃ s0 s', s = s0 :: s' := by
    cases s with
    | nil => simp [validScheme] at hvalid
    | cons a b => exact ⟨a, b, rfl⟩
  have halpha : isAsciiAlpha s0 = true := validScheme_head (hs0 ▸ hvalid)
  have hc0 : isC0OrSpace s0 = false := alpha_not_c0 halpha
  have houtgen : ∀ t : List Char, rstripSlash t = [] →
      lowerChars (rstripSlash (s ++ ':' :: '/' :: '/' :: t)) = s ++ [':'] := by
    intro t ht
    rw [rstripSlash_append_cons (by decide) s _, rstripSlash_slash_nil ht]
    show List.map pyLowerChar (s ++ [':']) = s ++ [':']
    rw [List.map_append, hlow']
    rw [show List.map pyLowerChar [':'] = [':'] from by decide]
  by_cases hw : rstripSlash (n ++ p0) = []
  · -- the netloc and path are all slashes; the normalized string is `scheme:`
    have hout := houtgen (n ++ p0) hw
    rw [hout]
    have hu1 : ((s ++ [':']).dropWhile isC0OrSpace).filter (fun c => !isUnsafeUrlChar c)
        = s ++ [':'] := by
      have hdrop : (s ++ [':']).dropWhile isC0OrSpace = s ++ [':'] := by
        rw [hs0, List.cons_append]
        exact List.dropWhile_cons_of_neg (by simp [hc0])
      rw [hdrop]
      apply List.filter_eq_self.mpr
      intro c hc
      rcases List.mem_append.mp hc with h | h
      · simp [hsafes c h]
      · simp only [List.mem_singleton] at h
        subst h
        decide
    have hss : splitScheme (s ++ [':']) = (s, []) := by
      have h1 := splitScheme_build hvalid []
      rw [hlow] at h1
      exact h1
    have hparse : urlparseSNP (s ++ [':']) = ⟨s, [], []⟩ := by
      rw [urlparseSNP_eq, hu1, hss]
      dsimp only
      rw [show splitNetloc [] = ([], []) from rfl]
      dsimp only
      rw [show dropFragmentQuery [] = [] from rfl]
      rw [if_neg (fun hcon => List.not_mem_nil ';' hcon.2)]
    show String.mk (lowerChars (rstripSlash ((urlparseSNP (s ++ [':'])).scheme
        ++ ':' :: '/' :: '/' :: ((urlparseSNP (s ++ [':'])).netloc
        ++ (urlparseSNP (s ++ [':'])).path))))
      = String.mk (s ++ [':'])
    rw [hparse]
    dsimp only
    exact congrArg String.mk (houtgen ([] ++ []) (by decide))
  · -- the netloc/path part survives the slash strip
    have h2 : rstripSlash ('/' :: '/' :: (n ++ p0)) = '/' :: '/' :: rstripSlash (n ++ p0) :=
      rstripSlash_slash_cons hw
    set w := rstripSlash (n ++ p0) with hwdef
    set lw := lowerChars w with hlwdef
    have hout : lowerChars (rstripSlash (s ++ ':' :: '/' :: '/' :: (n ++ p0)))
        = s ++ ':' :: '/' :: '/' :: lw := by
      rw [hsplit, h2]
      show List.map pyLowerChar (s ++ ':' :: '/' :: '/' :: w) = s ++ ':' :: '/' :: '/' :: lw
      rw [List.map_append, hlow', List.map_cons, List.map_cons, List.map_cons]
      rw [show pyLowerChar ':' = ':' from by decide, show pyLowerChar '/' = '/' from by decide]
      rw [hlwdef]
      rfl
    have hwmem : ∀ c ∈ w, c ∈ n ++ p0 := fun c hc => mem_rstripSlash (hwdef ▸ hc)
    have hwsafe : ∀ c ∈ w, isUnsafeUrlChar c = false := by
      intro c hc
      rcases List.mem_append.mp (hwmem c hc) with h | h
      exacts [hsafen c h, hsafep c h]
    have hwnofq : ∀ c ∈ w, (c == '#') = false ∧ (c == '?') = false := by
      intro c hc
      rcases List.mem_append.mp (hwmem c hc) with h | h
      · have hne := hnet c h
        unfold isNetlocEnd at hne
        simp only [Bool.or_eq_false_iff] at hne
        exact ⟨hne.2, hne.1.2⟩
      · have hne := hfrag c h
        simp only [Bool.or_eq_false_iff] at hne
        exact hne
    have hlwsafe : ∀ c ∈ lw, isUnsafeUrlChar c = false := by
      intro c hc
      rw [hlwdef] at hc
      obtain ⟨y, hy, rfl⟩ := List.mem_map.mp hc
      rw [isUnsafe_pyLowerChar]
      exact hwsafe y hy
    have hlwnofq : ∀ c ∈ lw, (c == '#' || c == '?') = false := by
      intro c hc
      rw [hlwdef] at hc
      obtain ⟨y, hy, rfl⟩ := List.mem_map.mp hc
      have hne := hwnofq y hy
      rw [Bool.or_eq_false_iff]
      rw [pyLowerChar_beq_low (by decide), pyLowerChar_beq_low (by decide)]
      exact hne
    have hlwne : lw ≠ [] := by
      rw [hlwdef]
      intro hx
      exact hw (List.map_eq_nil_iff.mp hx)
    have hlwlast : ∀ c, lw.getLast? = some c → c ≠ '/' := by
      intro c hcl
      rw [List.getLast?_eq_head?_reverse] at hcl
      have hrev : lw.reverse = List.map pyLowerChar w.reverse := by
        rw [hlwdef]
        exact (List.map_reverse _ _).symm
      rw [hrev] at hcl
      cases hwr : w.reverse with
      | nil => rw [hwr] at hcl; simp at hcl
      | cons x t =>
        rw [hwr] at hcl
        simp only [List.map_cons, List.head?_cons, Option.some.injEq] at hcl
        have hxl : x ≠ '/' := by
          have hgl : w.getLast? = some x := by
            rw [List.getLast?_eq_head?_reverse, hwr]
            rfl
          exact rstripSlash_getLast (hwdef ▸ hgl)
        intro hx
        rw [← hcl] at hx
        exact hxl ((pyLowerChar_eq_low (by decide)).mp hx)
    have hstrip_lw : rstripSlash lw = lw := rstripSlash_eq_self hlwlast
    rw [hout] at hsemi
    have hsemilw : ';' ∉ lw := by
      intro hx
      exact hsemi (List.mem_append.mpr (Or.inr (by simp [hx])))
    rw [hout]
    have hu1 : ((s ++ ':' :: '/' :: '/' :: lw).dropWhile isC0OrSpace).filter
        (fun c => !isUnsafeUrlChar c) = s ++ ':' :: '/' :: '/' :: lw := by
      have hdrop : (s ++ ':' :: '/' :: '/' :: lw).dropWhile isC0OrSpace
          = s ++ ':' :: '/' :: '/' :: lw := by
        rw [hs0, List.cons_append]
        exact List.dropWhile_cons_of_neg (by simp [hc0])
      rw [hdrop]
      apply List.filter_eq_self.mpr
      intro c hc
      rcases List.mem_append.mp hc with h | h
      · simp [hsafes c h]
      · simp only [List.mem_cons] at h
        rcases h with rfl | rfl | rfl | h
        · decide
        · decide
        · decide
        · simp [hlwsafe c h]
    have hss : splitScheme (s ++ ':' :: '/' :: '/' :: lw) = (s, '/' :: '/' :: lw) := by
      have h1 := splitScheme_build hvalid ('/' :: '/' :: lw)
      rw [hlow] at h1
      exact h1
    have hpath0 : dropFragmentQuery (lw.dropWhile (fun c => !isNetlocEnd c))
        = lw.dropWhile (fun c => !isNetlocEnd c) := by
      unfold dropFragmentQuery
      apply List.takeWhile_eq_self_iff.mpr
      intro c hc
      have hcl : c ∈ lw := mem_dropWhile hc
      simp [hlwnofq c hcl]
    have hparse : urlparseSNP (s ++ ':' :: '/' :: '/' :: lw)
        = ⟨s, lw.takeWhile (fun c => !isNetlocEnd c), lw.dropWhile (fun c => !isNetlocEnd c)⟩ := by
      rw [urlparseSNP_eq, hu1, hss]
      dsimp only
      rw [show splitNetloc ('/' :: '/' :: lw)
          = (lw.takeWhile (fun c => !isNetlocEnd c), lw.dropWhile (fun c => !isNetlocEnd c))
        from rfl]
      dsimp only
      rw [hpath0]
      rw [if_neg (fun hcon => hsemilw (mem_dropWhile hcon.2))]
    show String.mk (lowerChars (rstripSlash ((urlparseSNP (s ++ ':' :: '/' :: '/' :: lw)).scheme
        ++ ':' :: '/' :: '/' :: ((urlparseSNP (s ++ ':' :: '/' :: '/' :: lw)).netloc
        ++ (urlparseSNP (s ++ ':' :: '/' :: '/' :: lw)).path))))
      = String.mk (s ++ ':' :: '/' :: '/' :: lw)
    rw [hparse]
    dsimp only
    rw [List.takeWhile_append_dropWhile]
    apply congrArg String.mk
    rw [rstripSlash_append_cons (by decide) s ('/' :: '/' :: lw)]
    rw [rstripSlash_slash_cons (by rw [hstrip_lw]; exact hlwne)]
    rw [hstrip_lw]
    show List.map pyLowerChar (s ++ ':' :: '/' :: '/' :: lw) = s ++ ':' :: '/' :: '/' :: lw
    rw [List.map_append, hlow', List.map_cons, List.map_cons, List.map_cons]
    rw [show pyLowerChar ':' = ':' from by decide, show pyLowerChar '/' = '/' from by decide]
    have hmaplw : List.map pyLowerChar lw = lw := by
      rw [hlwdef]
      exact lowerChars_idem w
    rw [hmaplw]

/-- Claim C8 counterexample: normalization is *not* idempotent on every URL
string.  On `example.com` (no scheme) the code produces `://example.com`,
and normalizing that again produces `://://example.com`. -/
theorem normalize_url_not_idempotent :
    normalize_url (normalize_url "example.com") ≠ normalize_url "example.com" := by
  decide

/-- Claim C8, amended: `normalize_url` is idempotent on every URL whose
parse yields a nonempty scheme and whose normalized form contains no `;`
(a `;` in the final path segment would be split off as a `params` component
by the second parse, as the counterexample `http://a/b;x/` shows). -/
theorem normalize_url_idempotent (url : String)
    (hscheme : (urlparseSNP url.data).scheme ≠ [])
    (hsemi : ';' ∉ (normalize_url url).data) :
    normalize_url (normalize_url url) = normalize_url url := by
  have hne : (splitScheme ((url.data.dropWhile isC0OrSpace).filter
      (fun c => !isUnsafeUrlChar c))).1 ≠ [] := hscheme
  obtain ⟨hvalid, hlow⟩ := splitScheme_fst_valid hne
  set u1 := (url.data.dropWhile isC0OrSpace).filter (fun c => !isUnsafeUrlChar c) with hu1def
  have hu1mem : ∀ c ∈ u1, isUnsafeUrlChar c = false := by
    intro c hc
    rw [hu1def] at hc
    have := List.mem_filter.mp hc
    simpa using this.2
  have hnmem : ∀ c ∈ (splitNetloc (splitScheme u1).2).1, isUnsafeUrlChar c = false := by
    intro c hc
    exact hu1mem c (mem_splitScheme_snd (mem_splitNetloc_fst hc).1)
  have hnet : ∀ c ∈ (splitNetloc (splitScheme u1).2).1, isNetlocEnd c = false :=
    fun c hc => (mem_splitNetloc_fst hc).2
  have hpmem0 : ∀ c ∈ dropFragmentQuery (splitNetloc (splitScheme u1).2).2,
      isUnsafeUrlChar c = false ∧ (c == '#' || c == '?') = false := by
    intro c hc
    obtain ⟨hin, hnofq⟩ := mem_dropFragmentQuery hc
    exact ⟨hu1mem c (mem_splitScheme_snd (mem_splitNetloc_snd hin)), hnofq⟩
  have hsubp : ∀ c ∈ (urlparseSNP url.data).path,
      c ∈ dropFragmentQuery (splitNetloc (splitScheme u1).2).2 := by
    intro c hc
    rw [urlparseSNP_eq] at hc
    dsimp only at hc
    rw [← hu1def] at hc
    split at hc
    · exact mem_splitParamsPath hc
    · exact hc
  have hres : normalize_url url
      = ⟨lowerChars (rstripSlash ((splitScheme u1).1 ++ ':' :: '/' :: '/' ::
          ((splitNetloc (splitScheme u1).2).1 ++ (urlparseSNP url.data).path)))⟩ := rfl
  rw [hres]
  rw [hres] at hsemi
  exact normalize_idem_core (splitScheme u1).1 (splitNetloc (splitScheme u1).2).1
    (urlparseSNP url.data).path hvalid hlow hnmem
    (fun c hc => (hpmem0 c (hsubp c hc)).1) hnet
    (fun c hc => (hpmem0 c (hsubp c hc)).2) hsemi

/-- Witness for the amended claim C8 at a concrete URL. -/
theorem normalize_url_idempotent_witness :
    (urlparseSNP "HTTPS://Example.COM/Post/?q=1#frag".data).scheme ≠ []
    ∧ ';' ∉ (normalize_url "HTTPS://Example.COM/Post/?q=1#frag").data
    ∧ normalize_url (normalize_url "HTTPS://Example.COM/Post/?q=1#frag")
        = normalize_url "HTTPS://Example.COM/Post/?q=1#frag" :=
  ⟨by decide, by decide,
    normalize_url_idempotent "HTTPS://Example.COM/Post/?q=1#frag" (by decide) (by decide)⟩

/-! ## Data model (`models.py`) -/

/-- `models.FeedSource`, restricted to the fields the embedded functions
read (`tags` and `feed_type` are informational only).  `max_posts` is the
optional per-source cap (the `int` field is modelled as `Nat`: a negative
cap is meaningless), `min_comments` the optional engagement floor. -/
structure FeedSource where
  name : String
  url : String
  feed_url : Option String := none
  max_posts : Option Nat := none
  min_comments : Option Int := none
deriving Repr, DecidableEq

/-- `FeedSource.get_feed_url`: the explicit feed URL when truthy (present
and nonempty), else `<url stripped of trailing slashes>/feed`. -/
def FeedSource.get_feed_url (s : FeedSource) : String :=
  match s.feed_url with
  | some u => if u = "" then ⟨rstripSlash s.url.data ++ "/feed".data⟩ else u
  | none => ⟨rstripSlash s.url.data ++ "/feed".data⟩

/-- `models.BlogPost`; `published` is a `Nat` microsecond timestamp (see
the file header), `none` when no date was parsed. -/
structure BlogPost where
  title : String
  author : String
  url : String
  published : Option Nat := none
  summary : String := ""
  likes : Option Int := none
  comments : Option Int := none
  source_name : String := ""
  is_read : Bool := false
deriving Repr, DecidableEq

/-! ## Feed entry extraction (`feeds.py`) -/

/-- A `feedparser` entry, restricted to the keys `feeds.py` reads.  Each
date key holds the *outcome* of the conversion `_parse_date` applies to it
(`mktime` for the structured keys, `parsedate_to_datetime` /
`fromisoformat` for the string keys): `none` = key absent or falsy,
`some none` = key present but the conversion raises, `some (some t)` =
converts to timestamp `t`.  `slash_comments`/`thr_total` are analogous
with `int(val)`.  `summary` is `entry.get("summary", "")`; `content` holds
each content block's `value` (`block.get("value", "")`). -/
structure Entry where
  published_parsed : Option (Option Nat) := none
  updated_parsed : Option (Option Nat) := none
  published : Option (Option Nat) := none
  updated : Option (Option Nat) := none
  title : Option String := none
  link : Option String := none
  author : Option String := none
  summary : String := ""
  content : List String := []
  slash_comments : Option (Option Int) := none
  thr_total : Option (Option Int) := none
deriving Repr, DecidableEq

/-- `feeds._parse_date`: try `published_parsed` and `updated_parsed`, then
the `published` and `updated` strings; a key whose conversion fails falls
through to the next; `none` when nothing parses. -/
def parse_date (e : Entry) : Option Nat :=
  match e.published_parsed with
  | some (some t) => some t
  | _ =>
    match e.updated_parsed with
    | some (some t) => some t
    | _ =>
      match e.published with
      | some (some t) => some t
      | _ =>
        match e.updated with
        | some (some t) => some t
        | _ => none

/-- `feeds._extract_comments`: WordPress `slash:comments` first, then
`thr:total`; a present-but-unparsable value falls through to the next
key. -/
def _extract_comments (e : Entry) : Option Int :=
  match e.slash_comments with
  | some (some n) => some n
  | _ =>
    match e.thr_total with
    | some (some n) => some n
    | _ => none

/-- `feeds._extract_likes`: textually the same extraction as
`_extract_comments`; kept as a separate definition because the source keeps
two separate functions. -/
def _extract_likes (e : Entry) : Option Int :=
  match e.slash_comments with
  | some (some n) => some n
  | _ =>
    match e.thr_total with
    | some (some n) => some n
    | _ => none

/-- Python's `\s` / `str.strip` whitespace class (ASCII fragment). -/
def pyIsSpace (c : Char) : Bool :=
  c == ' ' || c == '\t' || c == '\n' || c == '\r' || c == '\x0b' || c == '\x0c'

/-- Worker for `stripTags`, structurally recursive on a fuel argument so
that it computes by kernel reduction.  Every call strictly shrinks the list
and spends one unit of fuel, so with `fuel = l.length` the `0` case is
reached only on `[]` (where it agrees with the real semantics anyway). -/
def stripTagsGo : Nat → List Char → List Char
  | 0, l => l
  | _ + 1, [] => []
  | fuel + 1, c :: rest =>
    if c == '<' then
      if rest.takeWhile (· ≠ '>') = [] then c :: stripTagsGo fuel rest
      else
        match rest.dropWhile (· ≠ '>') with
        | _ :: after => stripTagsGo fuel after
        | [] => c :: rest
    else c :: stripTagsGo fuel rest

/-- `re.sub(r"<[^>]+>", "", s)`: drop every `<`…`>` group with a nonempty
body; a `<` immediately followed by `>` or with no later `>` cannot match
and stays. -/
def stripTags (l : List Char) : List Char := stripTagsGo l.length l

/-- Model of Python `html.unescape`, restricted to the five predefined
XML/HTML entities (the stdlib's full named-entity table and numeric
character references are not reproduced; no verified property depends on
which entities are translated). -/
def pyUnescape : List Char → List Char
  | '&' :: 'a' :: 'm' :: 'p' :: ';' :: rest => '&' :: pyUnescape rest
  | '&' :: 'l' :: 't' :: ';' :: rest => '<' :: pyUnescape rest
  | '&' :: 'g' :: 't' :: ';' :: rest => '>' :: pyUnescape rest
  | '&' :: 'q' :: 'u' :: 'o' :: 't' :: ';' :: rest => '"' :: pyUnescape rest
  | '&' :: '#' :: '3' :: '9' :: ';' :: rest => '\'' :: pyUnescape rest
  | c :: rest => c :: pyUnescape rest
  | [] => []

/-- Worker for `collapseWs`, structurally recursive on fuel (`l.length`
always suffices; the `0` case is reached only on `[]`). -/
def collapseWsGo : Nat → List Char → List Char
  | 0, l => l
  | _ + 1, [] => []
  | fuel + 1, c :: rest =>
    if pyIsSpace c then ' ' :: collapseWsGo fuel (rest.dropWhile pyIsSpace)
    else c :: collapseWsGo fuel rest

/-- `re.sub(r"\s+", " ", s)`: replace each maximal whitespace run by a
single space. -/
def collapseWs (l : List Char) : List Char := collapseWsGo l.length l

/-- `str.strip()`: remove whitespace at both ends. -/
def pyStrip (l : List Char) : List Char :=
  ((l.dropWhile pyIsSpace).reverse.dropWhile pyIsSpace).reverse

/-- `feeds._extract_summary`: the dedicated summary field, else the first
content block's value; when a `<` is present, HTML-unescape then strip all
tags; always collapse whitespace runs and trim. -/
def _extract_summary (e : Entry) : String :=
  let summary := e.summary
  let summary := if summary = "" then
      (match e.content with
       | v :: _ => v
       | [] => summary)
    else summary
  let summary := if '<' ∈ summary.data then ⟨stripTags (pyUnescape summary.data)⟩ else summary
  ⟨pyStrip (collapseWs summary.data)⟩

example : _extract_summary { summary := "Hello <b>world</b>!  " } = "Hello world!" := by rfl
example : _extract_summary { summary := "", content := ["A  B", "ignored"] } = "A B" := by rfl
example : _extract_summary { summary := "&lt;kept" } = "&lt;kept" := by rfl
example : _extract_summary { summary := "x &lt;i&gt; <b>y</b>" } = "x y" := by rfl

/-! ## Feed fetching (`feeds.fetch_feed` / `feeds.fetch_all_feeds`) -/

/-- A parsed feed document: `feedparser`'s bozo flag and the entry list. -/
structure FeedDoc where
  bozo : Bool
  entries : List Entry
deriving Repr, DecidableEq

/-- The outcome of `httpx.get` followed by `feedparser.parse`, supplied as
an oracle input: `failure` models a raised `httpx.HTTPError` (transport
error or timeout — `response.raise_for_status()` also raises a subclass of
`HTTPError` on a non-2xx status, which the model checks explicitly);
`response status doc` models a completed exchange with the final HTTP
status and the parse of the body. -/
inductive HttpOutcome where
  | failure
  | response (status : Nat) (doc : FeedDoc)
deriving Repr, DecidableEq

/-- Microseconds per day (`timedelta(days=1)` at `datetime` resolution). -/
def usPerDay : Nat := 86400000000

/-- The recency filter: `if published and published < cutoff: continue` —
an entry without a date is never dropped here. -/
def recency_ok (cutoff : Nat) (pub : Option Nat) : Bool :=
  match pub with
  | none => true
  | some d => !decide (d < cutoff)

/-- The engagement filter: with `min_comments = M`, drop when the comment
count is absent or `< M`. -/
def engagement_ok (source : FeedSource) (comments : Option Int) : Bool :=
  match source.min_comments with
  | none => true
  | some m =>
    match comments with
    | none => false
    | some c => !decide (c < m)

/-- The body of `fetch_feed`'s `for entry in feed.entries` loop: `none` when
the entry is dropped by the recency or engagement filter, otherwise the
constructed `BlogPost`. -/
def entry_to_post (source : FeedSource) (cutoff : Nat) (e : Entry) : Option BlogPost :=
  let published := parse_date e
  if recency_ok cutoff published then
    let comments := _extract_comments e
    if engagement_ok source comments then
      some { title := e.title.getD "Untitled",
             author := e.author.getD source.name,
             url := e.link.getD "",
             published := published,
             summary := _extract_summary e,
             likes := _extract_likes e,
             comments := comments,
             source_name := source.name }
    else none
  else none

/-- `p.published or datetime.min.replace(tzinfo=timezone.utc)`: the sort
key shared by the per-source truncation and the aggregation sort (`0` is
the model of `datetime.min`). -/
def post_sort_key (p : BlogPost) : Nat := p.published.getD 0

/-- The comparison of `sort(key=..., reverse=True)`: `a` may precede `b`
iff `a`'s key is ≥ `b`'s.  Python's sort is stable, as is
`List.mergeSort`, so `mergeSort desc_le` is an exact model. -/
def desc_le (a b : BlogPost) : Bool := decide (post_sort_key b ≤ post_sort_key a)

/-- `feeds.fetch_feed`.  The Python function returns `[]` on any
`httpx.HTTPError` (transport failure, timeout, or the error
`raise_for_status` raises on a non-2xx status) and on a fatal parse with no
entries; otherwise it keeps the entries that survive the recency and
engagement filters and, when `max_posts` is exceeded, sorts by date
descending and truncates.  `now` models `datetime.now(tz=timezone.utc)`;
`cutoff = now - lookback_days * usPerDay` models `now - timedelta(days=lookback_days)`. -/
def fetch_feed (source : FeedSource) (now : Nat) (lookback_days : Nat)
    (http : HttpOutcome) : List BlogPost :=
  match http with
  | .failure => []
  | .response status doc =>
    if ¬(200 ≤ status ∧ status ≤ 299) then []
    else if doc.bozo ∧ doc.entries = [] then []
    else
      let cutoff := now - lookback_days * usPerDay
      let posts := doc.entries.filterMap (entry_to_post source cutoff)
      match source.max_posts with
      | some k => if posts.length > k then (posts.mergeSort desc_le).take k else posts
      | none => posts

/-- `feeds.fetch_all_feeds` over per-source HTTP outcomes (the network as
an oracle, one outcome per source, in source order); a single `now` models
the run's clock.  Fetch results are concatenated in source order and then
stably sorted by date descending. -/
def fetch_all_feeds (jobs : List (FeedSource × HttpOutcome)) (now : Nat)
    (lookback_days : Nat) : List BlogPost :=
  ((jobs.map (fun j => fetch_feed j.1 now lookback_days j.2)).flatten).mergeSort desc_le

/-! ## Facts about the fetch pipeline -/

/-- The posts of a feed document that survive the recency and engagement
filters: the `posts` list `fetch_feed` builds before the `max_posts` cap. -/
def surviving (source : FeedSource) (now lookback_days : Nat) (doc : FeedDoc) : List BlogPost :=
  doc.entries.filterMap (entry_to_post source (now - lookback_days * usPerDay))

theorem entry_to_post_eq (source : FeedSource) (cutoff : Nat) (e : Entry) :
    entry_to_post source cutoff e =
      if recency_ok cutoff (parse_date e) then
        (if engagement_ok source (_extract_comments e) then
          some { title := e.title.getD "Untitled", author := e.author.getD source.name,
                 url := e.link.getD "", published := parse_date e,
                 summary := _extract_summary e, likes := _extract_likes e,
                 comments := _extract_comments e, source_name := source.name }
        else none)
      else none := rfl

theorem fetch_feed_eq (source : FeedSource) (now lookback_days status : Nat) (doc : FeedDoc) :
    fetch_feed source now lookback_days (.response status doc) =
      if ¬(200 ≤ status ∧ status ≤ 299) then []
      else if doc.bozo ∧ doc.entries = [] then []
      else
        match source.max_posts with
        | some k => if (surviving source now lookback_days doc).length > k
            then ((surviving source now lookback_days doc).mergeSort desc_le).take k
            else surviving source now lookback_days doc
        | none => surviving source now lookback_days doc := rfl

theorem entry_to_post_some {source : FeedSource} {cutoff : Nat} {e : Entry} {p : BlogPost}
    (h : entry_to_post source cutoff e = some p) :
    recency_ok cutoff (parse_date e) = true
    ∧ engagement_ok source (_extract_comments e) = true
    ∧ p.published = parse_date e
    ∧ p.comments = _extract_comments e := by
  rw [entry_to_post_eq] at h
  by_cases h1 : recency_ok cutoff (parse_date e) = true
  · rw [if_pos h1] at h
    by_cases h2 : engagement_ok source (_extract_comments e) = true
    · rw [if_pos h2] at h
      cases h
      exact ⟨h1, h2, rfl, rfl⟩
    · rw [if_neg h2] at h
      cases h
  · rw [if_neg h1] at h
    cases h

theorem mem_fetch_feed_to_entry {source : FeedSource} {now lookback_days : Nat}
    {http : HttpOutcome} {p : BlogPost} (h : p ∈ fetch_feed source now lookback_days http) :
    ∃ e, entry_to_post source (now - lookback_days * usPerDay) e = some p := by
  cases http with
  | failure => cases h
  | response status doc =>
    rw [fetch_feed_eq] at h
    split at h
    · cases h
    · split at h
      · cases h
      · have hmem : p ∈ surviving source now lookback_days doc := by
          cases hmp : source.max_posts with
          | none =>
            rw [hmp] at h
            exact h
          | some k =>
            rw [hmp] at h
            dsimp only at h
            split at h
            · have h1 := (List.take_sublist k _).mem h
              exact ((List.mergeSort_perm _ desc_le).mem_iff).mp h1
            · exact h
        obtain ⟨e, _, hep⟩ := List.mem_filterMap.mp hmem
        exact ⟨e, hep⟩

theorem mem_fetch_feed_published_ge {source : FeedSource} {now lookback_days : Nat}
    {http : HttpOutcome} {p : BlogPost} (hp : p ∈ fetch_feed source now lookback_days http) :
    ∀ d, p.published = some d → now - lookback_days * usPerDay ≤ d := by
  intro d hd
  obtain ⟨e, he⟩ := mem_fetch_feed_to_entry hp
  obtain ⟨h1, _, h3, _⟩ := entry_to_post_some he
  rw [h3] at hd
  rw [hd] at h1
  simp only [recency_ok, Bool.not_eq_true'] at h1
  have := of_decide_eq_false h1
  omega

theorem desc_le_trans : ∀ a b c : BlogPost,
    desc_le a b = true → desc_le b c = true → desc_le a c = true := by
  intro a b c h1 h2
  simp only [desc_le, decide_eq_true_eq] at h1 h2 ⊢
  omega

theorem desc_le_total : ∀ a b : BlogPost, (desc_le a b || desc_le b a) = true := by
  intro a b
  simp only [desc_le, Bool.or_eq_true, decide_eq_true_eq]
  omega

/-- The first entry of `models.DEFAULT_FEEDS` (Marginal Revolution), used
as a concrete source in witnesses. -/
def mrSource : FeedSource :=
  { name := "Marginal Revolution",
    url := "https://marginalrevolution.com/",
    feed_url := some "https://marginalrevolution.com/feed",
    max_posts := some 5,
    min_comments := some 50 }

/-! ## Claims C1–C4: per-feed fetch behaviour -/

/-- Claim C1: when the HTTP fetch fails — a transport error or timeout
(`HttpOutcome.failure`, i.e. `httpx.get` raised) or a non-2xx final status
(on which `raise_for_status` raises, also caught) — `fetch_feed` returns
the empty list.  `fetch_feed` is a total Lean function, which models the
"never raises to its caller" half of the claim: the Python `except
httpx.HTTPError` arm converts every such failure into a return value. -/
theorem fetch_feed_empty_on_http_failure (source : FeedSource) (now lookback_days : Nat)
    (http : HttpOutcome)
    (h : http = .failure
      ∨ ∃ status doc, http = .response status doc ∧ ¬(200 ≤ status ∧ status ≤ 299)) :
    fetch_feed source now lookback_days http = [] := by
  rcases h with rfl | ⟨status, doc, rfl, hs⟩
  · rfl
  · rw [fetch_feed_eq, if_pos hs]

/-- Witness for C1 at a concrete non-2xx response (HTTP 404) and a real
default source. -/
theorem fetch_feed_empty_on_http_failure_witness :
    (HttpOutcome.response 404 ⟨false, []⟩ = .failure
      ∨ ∃ status doc, HttpOutcome.response 404 ⟨false, []⟩ = .response status doc
          ∧ ¬(200 ≤ status ∧ status ≤ 299))
    ∧ fetch_feed mrSource 1000 3 (.response 404 ⟨false, []⟩) = [] :=
  ⟨Or.inr ⟨404, ⟨false, []⟩, rfl, by decide⟩,
   fetch_feed_empty_on_http_failure mrSource 1000 3 _
     (Or.inr ⟨404, ⟨false, []⟩, rfl, by decide⟩)⟩

/-- Claim C2: for a source with `min_comments = M`, every post returned by
`fetch_feed` has a present comment count `≥ M` (entries whose extracted
comment count is absent were excluded by the engagement filter). -/
theorem fetch_feed_min_comments (source : FeedSource) (now lookback_days : Nat)
    (http : HttpOutcome) (M : Int) (hM : source.min_comments = some M) :
    ∀ p ∈ fetch_feed source now lookback_days http, ∃ c, p.comments = some c ∧ M ≤ c := by
  intro p hp
  obtain ⟨e, he⟩ := mem_fetch_feed_to_entry hp
  obtain ⟨_, h2, _, h4⟩ := entry_to_post_some he
  rw [h4]
  unfold engagement_ok at h2
  rw [hM] at h2
  cases hc : _extract_comments e with
  | none =>
    rw [hc] at h2
    cases h2
  | some c =>
    rw [hc] at h2
    simp only [Bool.not_eq_true'] at h2
    have := of_decide_eq_false h2
    exact ⟨c, rfl, by omega⟩

/-- A feed document with three entries carrying comment counts 120, 30 and
5 (the spec's end-to-end scenario), all dated at timestamp 1000. -/
def docComments : FeedDoc :=
  { bozo := false,
    entries := [
      { title := some "A", link := some "https://e.com/a",
        published_parsed := some (some 1000), slash_comments := some (some 120) },
      { title := some "B", link := some "https://e.com/b",
        published_parsed := some (some 1000), slash_comments := some (some 30) },
      { title := some "C", link := some "https://e.com/c",
        published_parsed := some (some 1000), slash_comments := some (some 5) } ] }

-- Sanity: with `min_comments = 50` only the 120-comment entry survives.
example : (fetch_feed mrSource 1000 3 (.response 200 docComments)).map BlogPost.title
    = ["A"] := by rfl

/-- Witness for C2: the concrete scenario above, checked through the
theorem at the 120-comment survivor. -/
theorem fetch_feed_min_comments_witness :
    mrSource.min_comments = some 50
    ∧ ∀ p ∈ fetch_feed mrSource 1000 3 (.response 200 docComments),
        ∃ c, p.comments = some c ∧ (50 : Int) ≤ c :=
  ⟨rfl, fetch_feed_min_comments mrSource 1000 3 (.response 200 docComments) 50 rfl⟩

/-- Claim C4: on a feed response with `N` entries, `fetch_feed` returns at
most `N` posts; no returned post has a known publish date older than
`now - lookback_days` days; and an entry whose publish date could not be
parsed passes the recency filter unconditionally — it can only be dropped
by the engagement filter (if that passes too, the entry yields a post). -/
theorem fetch_feed_recency_bound (source : FeedSource) (now lookback_days status : Nat)
    (doc : FeedDoc) (N : Nat) (hN : doc.entries.length = N) :
    (fetch_feed source now lookback_days (.response status doc)).length ≤ N
    ∧ (∀ p ∈ fetch_feed source now lookback_days (.response status doc),
        ∀ d, p.published = some d → now - lookback_days * usPerDay ≤ d)
    ∧ (∀ e ∈ doc.entries, parse_date e = none →
        recency_ok (now - lookback_days * usPerDay) (parse_date e) = true
        ∧ (engagement_ok source (_extract_comments e) = true →
            (entry_to_post source (now - lookback_days * usPerDay) e).isSome = true)) := by
  refine ⟨?_, fun p hp => mem_fetch_feed_published_ge hp, ?_⟩
  · have hsurv : (surviving source now lookback_days doc).length ≤ N := by
      rw [← hN]
      exact List.length_filterMap_le _ _
    rw [fetch_feed_eq]
    split
    · simp
    · split
      · simp
      · cases hmp : source.max_posts with
        | none => exact hsurv
        | some k =>
          dsimp only
          split
          · have hlen : ((surviving source now lookback_days doc).mergeSort desc_le).length
                = (surviving source now lookback_days doc).length :=
              (List.mergeSort_perm _ desc_le).length_eq
            calc (((surviving source now lookback_days doc).mergeSort desc_le).take k).length
                ≤ ((surviving source now lookback_days doc).mergeSort desc_le).length :=
                  (List.take_sublist _ _).length_le
              _ ≤ N := by rw [hlen]; exact hsurv
          · exact hsurv
  · intro e _ hnone
    have hrec : recency_ok (now - lookback_days * usPerDay) (parse_date e) = true := by
      rw [hnone]
      rfl
    refine ⟨hrec, fun heng => ?_⟩
    rw [entry_to_post_eq, if_pos hrec, if_pos heng]
    rfl

/-- Witness for C4 on the three-entry document plus a dateless entry. -/
theorem fetch_feed_recency_bound_witness :
    docComments.entries.length = 3
    ∧ (fetch_feed mrSource 1000 3 (.response 200 docComments)).length ≤ 3
    ∧ (∀ p ∈ fetch_feed mrSource 1000 3 (.response 200 docComments),
        ∀ d, p.published = some d → 1000 - 3 * usPerDay ≤ d)
    ∧ (∀ e ∈ docComments.entries, parse_date e = none →
        recency_ok (1000 - 3 * usPerDay) (parse_date e) = true
        ∧ (engagement_ok mrSource (_extract_comments e) = true →
            (entry_to_post mrSource (1000 - 3 * usPerDay) e).isSome = true)) :=
  ⟨rfl,
   (fetch_feed_recency_bound mrSource 1000 3 200 docComments 3 rfl).1,
   (fetch_feed_recency_bound mrSource 1000 3 200 docComments 3 rfl).2.1,
   (fetch_feed_recency_bound mrSource 1000 3 200 docComments 3 rfl).2.2⟩

/-- Claim C3: for a successful fetch from a source with `max_posts = K`
whose surviving set (recency + engagement filters, the `min_comments`
filter having been applied inside `surviving`, i.e. before the cap)
exceeds `K`: the result is the first `K` of the surviving set sorted by
date descending; it has exactly `K` posts; the surviving set splits (as a
multiset) into the result plus the leftovers, every leftover dating no
later than every returned post (dateless posts carry the minimal key `0`);
the result is sorted newest-first; and every returned post still satisfies
the engagement policy. -/
theorem fetch_feed_max_posts (source : FeedSource) (now lookback_days status : Nat)
    (doc : FeedDoc) (K : Nat)
    (hK : source.max_posts = some K)
    (hok : 200 ≤ status ∧ status ≤ 299)
    (hsurv : K < (surviving source now lookback_days doc).length) :
    fetch_feed source now lookback_days (.response status doc)
        = ((surviving source now lookback_days doc).mergeSort desc_le).take K
    ∧ (fetch_feed source now lookback_days (.response status doc)).length = K
    ∧ (surviving source now lookback_days doc).Perm
        (fetch_feed source now lookback_days (.response status doc)
          ++ ((surviving source now lookback_days doc).mergeSort desc_le).drop K)
    ∧ List.Pairwise (fun a b => post_sort_key b ≤ post_sort_key a)
        (fetch_feed source now lookback_days (.response status doc))
    ∧ (∀ p ∈ fetch_feed source now lookback_days (.response status doc),
        ∀ q ∈ ((surviving source now lookback_days doc).mergeSort desc_le).drop K,
          post_sort_key q ≤ post_sort_key p)
    ∧ (∀ p ∈ fetch_feed source now lookback_days (.response status doc),
        engagement_ok source p.comments = true) := by
  have hent : ¬(doc.bozo ∧ doc.entries = []) := by
    rintro ⟨_, he⟩
    unfold surviving at hsurv
    rw [he] at hsurv
    simp at hsurv
  have hff : fetch_feed source now lookback_days (.response status doc)
      = ((surviving source now lookback_days doc).mergeSort desc_le).take K := by
    rw [fetch_feed_eq, if_neg (not_not_intro hok), if_neg hent, hK]
    dsimp only
    rw [if_pos hsurv]
  have hmslen : ((surviving source now lookback_days doc).mergeSort desc_le).length
      = (surviving source now lookback_days doc).length :=
    (List.mergeSort_perm _ desc_le).length_eq
  have hsorted : List.Pairwise (fun a b => desc_le a b = true)
      ((surviving source now lookback_days doc).mergeSort desc_le) :=
    List.sorted_mergeSort desc_le_trans desc_le_total _
  have hsortkey : List.Pairwise (fun a b => post_sort_key b ≤ post_sort_key a)
      ((surviving source now lookback_days doc).mergeSort desc_le) := by
    apply hsorted.imp
    intro a b hab
    simpa [desc_le] using hab
  have hsplitsort : ((surviving source now lookback_days doc).mergeSort desc_le).take K
        ++ ((surviving source now lookback_days doc).mergeSort desc_le).drop K
      = (surviving source now lookback_days doc).mergeSort desc_le :=
    List.take_append_drop _ _
  refine ⟨hff, ?_, ?_, ?_, ?_, ?_⟩
  · rw [hff, List.length_take, hmslen]
    omega
  · rw [hff, hsplitsort]
    exact (List.mergeSort_perm _ desc_le).symm
  · rw [hff]
    exact hsortkey.sublist (List.take_sublist _ _)
  · rw [hff]
    have := (List.pairwise_append.mp (hsplitsort ▸ hsortkey)).2.2
    intro p hp q hq
    exact this p hp q hq
  · intro p hp
    obtain ⟨e, he⟩ := mem_fetch_feed_to_entry hp
    obtain ⟨_, h2, _, h4⟩ := entry_to_post_some he
    rw [h4]
    exact h2

/-- A document with three qualifying dated entries (comments well above the
floor), dated at 30, 20 and 10 units after epoch-of-model. -/
def docThree : FeedDoc :=
  { bozo := false,
    entries := [
      { title := some "old", link := some "https://e.com/old",
        published_parsed := some (some 10), slash_comments := some (some 100) },
      { title := some "new", link := some "https://e.com/new",
        published_parsed := some (some 30), slash_comments := some (some 100) },
      { title := some "mid", link := some "https://e.com/mid",
        published_parsed := some (some 20), slash_comments := some (some 100) } ] }

/-- A source with `max_posts = 2` and no engagement floor. -/
def cappedSource : FeedSource :=
  { name := "Capped", url := "https://e.com/", max_posts := some 2 }

/-- Witness for C3 on the `max_posts = 2`, three-survivors scenario. -/
theorem fetch_feed_max_posts_witness :
    cappedSource.max_posts = some 2
    ∧ (200 ≤ 200 ∧ 200 ≤ 299)
    ∧ 2 < (surviving cappedSource 30 3 docThree).length
    ∧ fetch_feed cappedSource 30 3 (.response 200 docThree)
        = ((surviving cappedSource 30 3 docThree).mergeSort desc_le).take 2
    ∧ (fetch_feed cappedSource 30 3 (.response 200 docThree)).length = 2 :=
  ⟨rfl, by decide, by decide,
   (fetch_feed_max_posts cappedSource 30 3 200 docThree 2 rfl (by decide) (by decide)).1,
   (fetch_feed_max_posts cappedSource 30 3 200 docThree 2 rfl (by decide) (by decide)).2.1⟩

/-! ## Claim C5: aggregation across all feeds -/

/-- Every dated post coming out of any per-source fetch carries a strictly
positive sort key once the lookback window stays this side of the model
epoch (`datetime.min`), because the recency filter discarded everything
older than the cutoff. -/
theorem mem_flatten_key_pos {jobs : List (FeedSource × HttpOutcome)} {now lookback_days : Nat}
    (hcut : lookback_days * usPerDay < now) {p : BlogPost}
    (hp : p ∈ (jobs.map (fun j => fetch_feed j.1 now lookback_days j.2)).flatten) :
    ∀ d, p.published = some d → 0 < post_sort_key p := by
  intro d hd
  obtain ⟨l, hl, hpl⟩ := List.mem_flatten.mp hp
  obtain ⟨j, _, rfl⟩ := List.mem_map.mp hl
  have hge := mem_fetch_feed_published_ge hpl d hd
  unfold post_sort_key
  rw [hd]
  simp only [Option.getD_some]
  omega

/-- Claim C5: `fetch_all_feeds` returns exactly the concatenation of the
per-source fetch results, reordered by publish date descending; the sort is
stable (posts with equal sort keys — equal dates, or both undated — keep
their relative fetch order, expressed as equality of the key-filtered
sublists); and all undated posts come after all dated posts.  The
hypothesis `lookback_days * usPerDay < now` says the lookback window does
not reach back to `datetime.min` (year 1) — in Python such a window is
unrepresentable anyway — which rules out a dated post tying with the
undated sentinel key. -/
theorem fetch_all_feeds_sorted (jobs : List (FeedSource × HttpOutcome))
    (now lookback_days : Nat) (hcut : lookback_days * usPerDay < now) :
    (fetch_all_feeds jobs now lookback_days).Perm
        ((jobs.map (fun j => fetch_feed j.1 now lookback_days j.2)).flatten)
    ∧ List.Pairwise (fun a b => post_sort_key b ≤ post_sort_key a)
        (fetch_all_feeds jobs now lookback_days)
    ∧ (∀ k, (fetch_all_feeds jobs now lookback_days).filter (fun p => post_sort_key p == k)
        = ((jobs.map (fun j => fetch_feed j.1 now lookback_days j.2)).flatten).filter
            (fun p => post_sort_key p == k))
    ∧ List.Pairwise (fun a b => a.published = none → b.published = none)
        (fetch_all_feeds jobs now lookback_days) := by
  have hperm : (fetch_all_feeds jobs now lookback_days).Perm
      ((jobs.map (fun j => fetch_feed j.1 now lookback_days j.2)).flatten) :=
    List.mergeSort_perm _ desc_le
  have hsorted : List.Pairwise (fun a b => desc_le a b = true)
      (fetch_all_feeds jobs now lookback_days) :=
    List.sorted_mergeSort desc_le_trans desc_le_total _
  have hsortkey : List.Pairwise (fun a b => post_sort_key b ≤ post_sort_key a)
      (fetch_all_feeds jobs now lookback_days) := by
    apply hsorted.imp
    intro a b hab
    simpa [desc_le] using hab
  refine ⟨hperm, hsortkey, ?_, ?_⟩
  · intro k
    set L := (jobs.map (fun j => fetch_feed j.1 now lookback_days j.2)).flatten with hL
    have hpair : (L.filter (fun p => post_sort_key p == k)).Pairwise
        (fun a b => desc_le a b = true) := by
      rw [List.pairwise_iff_forall_sublist]
      intro a b hsub
      have ha := List.mem_filter.mp (hsub.mem (show a ∈ [a, b] by simp))
      have hb := List.mem_filter.mp (hsub.mem (show b ∈ [a, b] by simp))
      have hak : post_sort_key a = k := eq_of_beq ha.2
      have hbk : post_sort_key b = k := eq_of_beq hb.2
      simp [desc_le, hak, hbk]
    have hsubsort : (L.filter (fun p => post_sort_key p == k)).Sublist (L.mergeSort desc_le) :=
      List.sublist_mergeSort desc_le_trans desc_le_total hpair (List.filter_sublist L)
    have hfix : (L.filter (fun p => post_sort_key p == k)).filter (fun p => post_sort_key p == k)
        = L.filter (fun p => post_sort_key p == k) :=
      List.filter_eq_self.mpr (fun a ha => (List.mem_filter.mp ha).2)
    have hsub2 : (L.filter (fun p => post_sort_key p == k)).Sublist
        ((L.mergeSort desc_le).filter (fun p => post_sort_key p == k)) := by
      rw [← hfix]
      exact hsubsort.filter (fun p => post_sort_key p == k)
    have hpermf : ((L.mergeSort desc_le).filter (fun p => post_sort_key p == k)).Perm
        (L.filter (fun p => post_sort_key p == k)) :=
      (List.mergeSort_perm L desc_le).filter (fun p => post_sort_key p == k)
    exact (hsub2.eq_of_length hpermf.length_eq.symm).symm
  · apply hsortkey.imp_of_mem
    intro a b ha hb hkey hnone
    have hbL : b ∈ (jobs.map (fun j => fetch_feed j.1 now lookback_days j.2)).flatten :=
      hperm.mem_iff.mp hb
    have hka : post_sort_key a = 0 := by
      unfold post_sort_key
      rw [hnone]
      rfl
    cases hpb : b.published with
    | none => rfl
    | some d =>
      have := mem_flatten_key_pos hcut hbL d hpb
      omega

/-- Witness for C5: one failing source and one source delivering the
three-entry document; the lookback window stays after the model epoch. -/
theorem fetch_all_feeds_sorted_witness :
    (3 : Nat) * usPerDay < 1000 + 3 * usPerDay
    ∧ ((fetch_all_feeds [(mrSource, .failure),
          (cappedSource, .response 200 docComments)] (1000 + 3 * usPerDay) 3).Perm
        (([(mrSource, HttpOutcome.failure),
           (cappedSource, .response 200 docComments)].map
            (fun j => fetch_feed j.1 (1000 + 3 * usPerDay) 3 j.2)).flatten)
      ∧ List.Pairwise (fun a b => post_sort_key b ≤ post_sort_key a)
          (fetch_all_feeds [(mrSource, .failure),
            (cappedSource, .response 200 docComments)] (1000 + 3 * usPerDay) 3)
      ∧ (∀ k, (fetch_all_feeds [(mrSource, .failure),
            (cappedSource, .response 200 docComments)] (1000 + 3 * usPerDay) 3).filter
              (fun p => post_sort_key p == k)
          = (([(mrSource, HttpOutcome.failure),
               (cappedSource, .response 200 docComments)].map
                (fun j => fetch_feed j.1 (1000 + 3 * usPerDay) 3 j.2)).flatten).filter
              (fun p => post_sort_key p == k))
      ∧ List.Pairwise (fun a b => a.published = none → b.published = none)
          (fetch_all_feeds [(mrSource, .failure),
            (cappedSource, .response 200 docComments)] (1000 + 3 * usPerDay) 3)) :=
  ⟨by decide,
   fetch_all_feeds_sorted [(mrSource, .failure), (cappedSource, .response 200 docComments)]
     (1000 + 3 * usPerDay) 3 (by decide)⟩

/-! ## Claim C6: summary extraction -/

/-- The summary rule as the specification words it: prefer the dedicated
summary field when non-empty, otherwise the first content block's value;
if the text contains the markup delimiter `<`, unescape HTML entities and
strip all tags; in every case collapse whitespace runs to single spaces
and trim. -/
def extract_summary_spec (e : Entry) : String :=
  let base := if e.summary ≠ "" then e.summary else e.content.head?.getD ""
  let cleaned := if '<' ∈ base.data then (⟨stripTags (pyUnescape base.data)⟩ : String) else base
  ⟨pyStrip (collapseWs cleaned.data)⟩

theorem extract_summary_eq_spec (e : Entry) : _extract_summary e = extract_summary_spec e := by
  unfold _extract_summary extract_summary_spec
  by_cases hs : e.summary = ""
  · cases hc : e.content with
    | nil => simp [hs, hc]
    | cons v t => simp [hs, hc]
  · simp [hs]

/-- `collapseWsGo` leaves a leading non-whitespace character in place. -/
theorem collapseWsGo_head {fuel : Nat} {l : List Char} {h : Char}
    (hh : l.head? = some h) (hws : pyIsSpace h = false) :
    (collapseWsGo fuel l).head? = some h := by
  cases fuel with
  | zero => exact hh
  | succ fuel =>
    cases l with
    | nil => cases hh
    | cons c rest =>
      cases hh
      unfold collapseWsGo
      rw [if_neg (by simp [hws])]
      rfl

theorem collapseWsGo_nil (fuel : Nat) : collapseWsGo fuel [] = [] := by
  cases fuel <;> rfl

/-- Characters of the collapsed list: each is either the replacement space
or a non-whitespace character of the input (`fuel` must cover the input,
as it always does at the `collapseWs` call site). -/
theorem collapseWsGo_mem : ∀ (fuel : Nat) (l : List Char), l.length ≤ fuel →
    ∀ c ∈ collapseWsGo fuel l, c = ' ' ∨ (c ∈ l ∧ pyIsSpace c = false) := by
  intro fuel l
  induction fuel, l using collapseWsGo.induct with
  | case1 l =>
    intro hf c hc
    have hl : l = [] := List.eq_nil_of_length_eq_zero (Nat.le_zero.mp hf)
    subst hl
    cases hc
  | case2 n =>
    intro _ c hc
    cases hc
  | case3 fuel c rest hsp ih =>
    intro hf x hx
    rw [show collapseWsGo (fuel + 1) (c :: rest)
        = ' ' :: collapseWsGo fuel (rest.dropWhile pyIsSpace) from by
      simp only [collapseWsGo]; rw [if_pos hsp]] at hx
    rcases List.mem_cons.mp hx with rfl | hx2
    · exact Or.inl rfl
    · have hlen : (rest.dropWhile pyIsSpace).length ≤ fuel := by
        have h1 := (@List.dropWhile_sublist _ rest pyIsSpace).length_le
        simp only [List.length_cons] at hf
        omega
      rcases ih hlen x hx2 with h | ⟨hm, hws⟩
      · exact Or.inl h
      · exact Or.inr ⟨List.mem_cons_of_mem c (mem_dropWhile hm), hws⟩
  | case4 fuel c rest hsp ih =>
    intro hf x hx
    rw [show collapseWsGo (fuel + 1) (c :: rest) = c :: collapseWsGo fuel rest from by
      simp only [collapseWsGo]; rw [if_neg hsp]] at hx
    rcases List.mem_cons.mp hx with rfl | hx2
    · exact Or.inr ⟨List.mem_cons_self _ _, Bool.eq_false_iff.mpr hsp⟩
    · have hlen : rest.length ≤ fuel := by
        simp only [List.length_cons] at hf
        omega
      rcases ih hlen x hx2 with h | ⟨hm, hws⟩
      · exact Or.inl h
      · exact Or.inr ⟨List.mem_cons_of_mem c hm, hws⟩

/-- The collapsed list never contains two adjacent spaces. -/
theorem collapseWsGo_chain : ∀ (fuel : Nat) (l : List Char), l.length ≤ fuel →
    List.Chain' (fun a b => ¬(a = ' ' ∧ b = ' ')) (collapseWsGo fuel l) := by
  intro fuel l
  induction fuel, l using collapseWsGo.induct with
  | case1 l =>
    intro hf
    have hl : l = [] := List.eq_nil_of_length_eq_zero (Nat.le_zero.mp hf)
    subst hl
    exact List.chain'_nil
  | case2 n =>
    exact fun _ => List.chain'_nil
  | case3 fuel c rest hsp ih =>
    intro hf
    rw [show collapseWsGo (fuel + 1) (c :: rest)
        = ' ' :: collapseWsGo fuel (rest.dropWhile pyIsSpace) from by
      simp only [collapseWsGo]; rw [if_pos hsp]]
    have hlen : (rest.dropWhile pyIsSpace).length ≤ fuel := by
      have h1 := (@List.dropWhile_sublist _ rest pyIsSpace).length_le
      simp only [List.length_cons] at hf
      omega
    rw [List.chain'_cons']
    refine ⟨?_, ih hlen⟩
    intro y hy
    cases hd : rest.dropWhile pyIsSpace with
    | nil =>
      rw [hd, collapseWsGo_nil] at hy
      simp at hy
    | cons z t =>
      have hz : pyIsSpace z = false := head_dropWhile_false hd
      have hhead := @collapseWsGo_head fuel _ _
        (show (rest.dropWhile pyIsSpace).head? = some z by rw [hd]; rfl) hz
      rw [Option.mem_def, hhead] at hy
      cases hy
      rintro ⟨-, rfl⟩
      exact absurd hz (by decide)
  | case4 fuel c rest hsp ih =>
    intro hf
    rw [show collapseWsGo (fuel + 1) (c :: rest) = c :: collapseWsGo fuel rest from by
      simp only [collapseWsGo]; rw [if_neg hsp]]
    have hlen : rest.length ≤ fuel := by
      simp only [List.length_cons] at hf
      omega
    rw [List.chain'_cons']
    refine ⟨?_, ih hlen⟩
    intro y _
    rintro ⟨rfl, -⟩
    exact hsp (by decide)

/-- Trimming trailing characters preserves the head. -/
theorem rtrim_head {p : Char → Bool} {m : List Char} {c : Char}
    (h : ((m.reverse.dropWhile p).reverse).head? = some c) : m.head? = some c := by
  cases m with
  | nil => simp at h
  | cons x t =>
    rw [show (x :: t).reverse = t.reverse ++ [x] from by simp] at h
    rw [List.dropWhile_append] at h
    by_cases hne : t.reverse.dropWhile p = []
    · rw [hne] at h
      rw [if_pos (show ([] : List Char).isEmpty = true from rfl)] at h
      by_cases hx : p x = true
      · rw [List.dropWhile_cons_of_pos hx] at h
        simp at h
      · rw [List.dropWhile_cons_of_neg hx] at h
        simp only [List.reverse_cons, List.reverse_nil, List.nil_append, List.head?_cons] at h
        exact h
    · rw [if_neg (by simpa using hne)] at h
      rw [List.reverse_append] at h
      simp only [List.reverse_cons, List.reverse_nil, List.nil_append, List.cons_append,
        List.head?_cons] at h
      exact h

theorem mem_pyStrip {l : List Char} {c : Char} (h : c ∈ pyStrip l) : c ∈ l := by
  unfold pyStrip at h
  rw [List.mem_reverse] at h
  have h1 := mem_dropWhile h
  rw [List.mem_reverse] at h1
  exact mem_dropWhile h1

theorem pyStrip_head {l : List Char} {c : Char} (h : (pyStrip l).head? = some c) :
    pyIsSpace c = false := by
  unfold pyStrip at h
  have h1 := rtrim_head h
  cases hd : l.dropWhile pyIsSpace with
  | nil => rw [hd] at h1; cases h1
  | cons z t =>
    rw [hd] at h1
    cases h1
    exact head_dropWhile_false hd

theorem pyStrip_getLast {l : List Char} {c : Char} (h : (pyStrip l).getLast? = some c) :
    pyIsSpace c = false := by
  rw [List.getLast?_eq_head?_reverse] at h
  unfold pyStrip at h
  rw [List.reverse_reverse] at h
  cases hd : (l.dropWhile pyIsSpace).reverse.dropWhile pyIsSpace with
  | nil => rw [hd] at h; cases h
  | cons z t =>
    rw [hd] at h
    cases h
    exact head_dropWhile_false hd

/-- `Chain'` transfers from a list to the result of `pyStrip`. -/
theorem pyStrip_chain {l : List Char}
    (h : List.Chain' (fun a b => ¬(a = ' ' ∧ b = ' ')) l) :
    List.Chain' (fun a b => ¬(a = ' ' ∧ b = ' ')) (pyStrip l) := by
  have h1 : List.Chain' (fun a b => ¬(a = ' ' ∧ b = ' ')) (l.dropWhile pyIsSpace) :=
    h.suffix (List.dropWhile_suffix pyIsSpace)
  have h2 : List.Chain' (flip (fun a b : Char => ¬(a = ' ' ∧ b = ' ')))
      ((l.dropWhile pyIsSpace).reverse) := by
    rw [← List.chain'_reverse, List.reverse_reverse]
    exact h1
  have h3 := h2.suffix (List.dropWhile_suffix pyIsSpace)
  unfold pyStrip
  rw [List.chain'_reverse]
  apply h3.imp
  intro a b hab
  unfold flip at hab ⊢
  tauto

/-- The text `_extract_summary` selects and (conditionally) cleans before
the whitespace pass: summary field, else first content value, with
unescape-and-strip-tags applied when a `<` is present. -/
def summary_base (e : Entry) : String :=
  let summary := e.summary
  let summary := if summary = "" then
      (match e.content with
       | v :: _ => v
       | [] => summary)
    else summary
  if '<' ∈ summary.data then ⟨stripTags (pyUnescape summary.data)⟩ else summary

/-- Claim C6: the extracted summary is the dedicated summary field when
non-empty, otherwise the first content block's value; when that text
contains the markup delimiter `<`, entities are unescaped and all tags
stripped (the equality with `extract_summary_spec`, which follows the
spec's wording); and in every case whitespace runs are collapsed to single
spaces and the result is trimmed (every whitespace character left is a
plain space, no two spaces are adjacent, and neither end is whitespace). -/
theorem extract_summary_correct (e : Entry) :
    _extract_summary e = extract_summary_spec e
    ∧ (∀ c ∈ (_extract_summary e).data, pyIsSpace c = true → c = ' ')
    ∧ List.Chain' (fun a b => ¬(a = ' ' ∧ b = ' ')) (_extract_summary e).data
    ∧ (∀ c, (_extract_summary e).data.head? = some c → pyIsSpace c = false)
    ∧ (∀ c, (_extract_summary e).data.getLast? = some c → pyIsSpace c = false) := by
  have heq : (_extract_summary e).data = pyStrip (collapseWs (summary_base e).data) := rfl
  refine ⟨extract_summary_eq_spec e, ?_, ?_, ?_, ?_⟩
  · rw [heq]
    intro c hc hws
    rcases collapseWsGo_mem (summary_base e).data.length (summary_base e).data
        (Nat.le_refl _) c (mem_pyStrip hc) with h | ⟨_, hws2⟩
    · exact h
    · rw [hws2] at hws
      cases hws
  · rw [heq]
    exact pyStrip_chain (collapseWsGo_chain _ _ (Nat.le_refl _))
  · rw [heq]
    intro c hc
    exact pyStrip_head hc
  · rw [heq]
    intro c hc
    exact pyStrip_getLast hc

/-- A concrete entry for the C6 witness. -/
def tagEntry : Entry := { summary := "Hello <b>world</b>!  " }

/-- Witness for C6 at a concrete entry containing markup and trailing
whitespace. -/
theorem extract_summary_correct_witness :
    _extract_summary tagEntry = extract_summary_spec tagEntry
    ∧ (∀ c ∈ (_extract_summary tagEntry).data, pyIsSpace c = true → c = ' ')
    ∧ List.Chain' (fun a b => ¬(a = ' ' ∧ b = ' ')) (_extract_summary tagEntry).data
    ∧ (∀ c, (_extract_summary tagEntry).data.head? = some c → pyIsSpace c = false)
    ∧ (∀ c, (_extract_summary tagEntry).data.getLast? = some c → pyIsSpace c = false) :=
  extract_summary_correct tagEntry

/-! ## SQLite storage (`storage.py`) -/

/-- A row of the `posts` table (see `_SCHEMA`): keyed by `url`;
`published` is the stored ISO text or SQL NULL; `is_read` is the stored
0/1 integer as a `Bool`. -/
structure Row where
  url : String
  title : String
  author : String
  published : Option String
  summary : String
  likes : Option Int
  comments : Option Int
  source_name : String
  is_read : Bool
  first_seen : String
  last_seen : String
deriving Repr, DecidableEq

/-- `post.published.isoformat() if post.published else None`.  The claims
below depend only on presence or absence of the stored date, never on the
text encoding, so the ISO rendering of a model timestamp is abstracted to
its decimal rendering. -/
def isoText (published : Option Nat) : Option String :=
  published.map (fun d => toString d)

/-- The UPDATE arm of `storage.upsert_posts`: every content column is
overwritten, `is_read` becomes the Python `or` of the stored 0/1 value and
`int(post.is_read)` (logical OR), `last_seen := now`; the key and
`first_seen` are untouched. -/
def update_row (r : Row) (p : BlogPost) (now : String) : Row :=
  { r with
    title := p.title
    author := p.author
    published := isoText p.published
    summary := p.summary
    likes := p.likes
    comments := p.comments
    source_name := p.source_name
    is_read := r.is_read || p.is_read
    last_seen := now }

/-- The INSERT arm of `storage.upsert_posts`. -/
def insert_row (p : BlogPost) (now : String) : Row :=
  { url := p.url, title := p.title, author := p.author, published := isoText p.published,
    summary := p.summary, likes := p.likes, comments := p.comments,
    source_name := p.source_name, is_read := p.is_read, first_seen := now, last_seen := now }

/-- One iteration of the `for post in posts` loop of `upsert_posts`:
SELECT by url; on a hit, UPDATE every row with that url (the primary key
makes it unique, but the SQL `UPDATE ... WHERE url=?` form is kept);
otherwise INSERT at the end and count the new row. -/
def upsert_one (now : String) (db : List Row) (p : BlogPost) : List Row × Nat :=
  if db.any (fun r => r.url == p.url) then
    (db.map (fun r => if r.url == p.url then update_row r p now else r), 0)
  else (db ++ [insert_row p now], 1)

/-- `storage.upsert_posts`: fold the loop over the post list, returning
the new table state and the number of newly inserted rows. -/
def upsert_posts (now : String) (db : List Row) (posts : List BlogPost) : List Row × Nat :=
  posts.foldl (fun acc p =>
    ((upsert_one now acc.1 p).1, acc.2 + (upsert_one now acc.1 p).2)) (db, 0)

/-- `upsert_one` keeps the url `u` present, and keeps every row with url
`u` read, whenever it was present and read before. -/
theorem upsert_one_preserves (now : String) (p : BlogPost) {db : List Row} {u : String}
    (h1 : ∃ r ∈ db, r.url = u) (h2 : ∀ r ∈ db, r.url = u → r.is_read = true) :
    (∃ r ∈ (upsert_one now db p).1, r.url = u)
    ∧ (∀ r ∈ (upsert_one now db p).1, r.url = u → r.is_read = true) := by
  unfold upsert_one
  by_cases hany : db.any (fun r => r.url == p.url) = true
  · rw [if_pos hany]
    constructor
    · obtain ⟨r, hr, hru⟩ := h1
      refine ⟨if r.url == p.url then update_row r p now else r,
        List.mem_map_of_mem _ hr, ?_⟩
      by_cases hc : r.url == p.url
      · rw [if_pos hc]
        exact hru
      · rw [if_neg hc]
        exact hru
    · intro r' hr' hu'
      obtain ⟨r, hr, himg⟩ := List.mem_map.mp hr'
      by_cases hc : r.url == p.url
      · rw [if_pos hc] at himg
        subst himg
        have hru : r.url = u := hu'
        rw [show (update_row r p now).is_read = (r.is_read || p.is_read) from rfl]
        rw [h2 r hr hru]
        rfl
      · rw [if_neg hc] at himg
        subst himg
        exact h2 r hr hu'
  · rw [if_neg hany]
    constructor
    · obtain ⟨r, hr, hru⟩ := h1
      exact ⟨r, List.mem_append.mpr (Or.inl hr), hru⟩
    · intro r' hr' hu'
      rcases List.mem_append.mp hr' with h | h
      · exact h2 r' h hu'
      · exfalso
        simp only [List.mem_singleton] at h
        subst h
        obtain ⟨r, hr, hru⟩ := h1
        apply hany
        apply List.any_eq_true.mpr
        refine ⟨r, hr, ?_⟩
        have hpu : p.url = u := hu'
        rw [hru, hpu]
        exact beq_self_eq_true u

theorem upsert_posts_inv (now : String) (u : String) :
    ∀ (posts : List BlogPost) (db : List Row) (n : Nat),
    (∃ r ∈ db, r.url = u) → (∀ r ∈ db, r.url = u → r.is_read = true) →
    ∀ r ∈ (posts.foldl (fun acc p =>
        ((upsert_one now acc.1 p).1, acc.2 + (upsert_one now acc.1 p).2)) (db, n)).1,
      r.url = u → r.is_read = true := by
  intro posts
  induction posts with
  | nil =>
    intro db n _ h2
    exact h2
  | cons p ps ih =>
    intro db n h1 h2
    rw [List.foldl_cons]
    have hp := upsert_one_preserves now p h1 h2
    exact ih (upsert_one now db p).1 (n + (upsert_one now db p).2) hp.1 hp.2

/-- Claim C9: the stored read flag is monotonic under upsert.  If some row
stores url `u` with `is_read = true` (and every row of that url is read —
with the primary key there is exactly one), then after `upsert_posts` with
*any* post list — including posts with that url and `is_read = false` —
every row with url `u` still has `is_read = true`; and the single-row merge
is the logical OR of the stored and incoming flags. -/
theorem upsert_is_read_monotonic (now : String) (u : String) (db : List Row)
    (posts : List BlogPost)
    (hstored : ∃ r ∈ db, r.url = u)
    (hread : ∀ r ∈ db, r.url = u → r.is_read = true) :
    (∀ r ∈ (upsert_posts now db posts).1, r.url = u → r.is_read = true)
    ∧ (∀ (p : BlogPost) (r : Row), (update_row r p now).is_read = (r.is_read || p.is_read)) :=
  ⟨upsert_posts_inv now u posts db 0 hstored hread, fun _ _ => rfl⟩

/-- A stored read row and an incoming unread post with the same url, for
the C9 witness. -/
def rowU : Row :=
  { url := "https://e.com/a", title := "t", author := "a", published := none,
    summary := "", likes := none, comments := none, source_name := "s",
    is_read := true, first_seen := "2026-01-01", last_seen := "2026-01-01" }

def postU : BlogPost :=
  { title := "t2", author := "b", url := "https://e.com/a", is_read := false }

-- Sanity: re-fetching the read post as unread leaves it read, and counts
-- no new row.
example : (upsert_posts "2026-01-02" [rowU] [postU]).1.map Row.is_read = [true] := by rfl
example : (upsert_posts "2026-01-02" [rowU] [postU]).2 = 0 := by rfl

/-- Witness for C9 at the concrete one-row database. -/
theorem upsert_is_read_monotonic_witness :
    (∃ r ∈ [rowU], r.url = "https://e.com/a")
    ∧ (∀ r ∈ [rowU], r.url = "https://e.com/a" → r.is_read = true)
    ∧ ((∀ r ∈ (upsert_posts "2026-01-02" [rowU] [postU]).1,
          r.url = "https://e.com/a" → r.is_read = true)
      ∧ (∀ (p : BlogPost) (r : Row),
          (update_row r p "2026-01-02").is_read = (r.is_read || p.is_read))) :=
  ⟨⟨rowU, by decide, rfl⟩, by decide,
   upsert_is_read_monotonic "2026-01-02" "https://e.com/a" [rowU] [postU]
     ⟨rowU, by decide, rfl⟩ (by decide)⟩

/-! ## Claim C10: `storage.get_posts` and NULL publish dates -/

/-- `CASE WHEN published IS NULL THEN 1 ELSE 0 END`. -/
def row_null_flag (r : Row) : Nat := if r.published = none then 1 else 0

/-- The `ORDER BY CASE ... , published DESC` comparison as a total
preorder for the sort: dated rows first, then by the stored text
descending (SQLite compares TEXT bytewise; NULLs, all in the second
group, compare equal here). -/
def row_order (a b : Row) : Bool :=
  decide (row_null_flag a < row_null_flag b)
    || (decide (row_null_flag a = row_null_flag b)
        && decide ((b.published.getD "") ≤ (a.published.getD "")))

theorem row_order_trans : ∀ a b c : Row,
    row_order a b = true → row_order b c = true → row_order a c = true := by
  intro a b c h1 h2
  simp only [row_order, Bool.or_eq_true, Bool.and_eq_true, decide_eq_true_eq] at h1 h2 ⊢
  rcases h1 with h1 | ⟨h1e, h1s⟩
  · rcases h2 with h2 | ⟨h2e, h2s⟩
    · left; omega
    · left; omega
  · rcases h2 with h2 | ⟨h2e, h2s⟩
    · left; omega
    · right
      exact ⟨by omega, le_trans h2s h1s⟩

theorem row_order_total : ∀ a b : Row, (row_order a b || row_order b a) = true := by
  intro a b
  simp only [row_order, Bool.or_eq_true, Bool.and_eq_true, decide_eq_true_eq]
  rcases Nat.lt_trichotomy (row_null_flag a) (row_null_flag b) with h | h | h
  · left; left; exact h
  · rcases le_total (b.published.getD "") (a.published.getD "") with hs | hs
    · left; right; exact ⟨h, hs⟩
    · right; right; exact ⟨h.symm, hs⟩
  · right; left; exact h

/-- `storage.get_posts` with a lookback filter, over the row model.
`cutoff` is the ISO text of `now - lookback_days` (absent = no lookback
condition); `source_name` filters only when truthy (`if source_name:`).
The WHERE clause keeps a row when `published >= cutoff OR published IS
NULL`; the result is ordered dated-first, date descending.  (The final
re-packaging of each row into a `BlogPost` is a field-for-field copy that
affects neither membership nor order and is not repeated here.) -/
def get_posts (db : List Row) (cutoff : Option String) (source_name : Option String) :
    List Row :=
  (db.filter (fun r =>
    (match cutoff with
     | none => true
     | some c =>
       match r.published with
       | none => true
       | some pubd => decide (c ≤ pubd))
    && (match source_name with
        | none => true
        | some s => if s = "" then true else r.source_name == s))).mergeSort row_order

/-- Claim C10: with any lookback cutoff (and no source filter), every
stored row whose publish date is NULL is returned — the lookback window
never excludes undated posts — and the result orders them after all dated
rows (once a NULL-dated row appears, everything after it is NULL-dated). -/
theorem get_posts_keeps_null_dates (db : List Row) (cutoff : String) :
    (∀ r ∈ db, r.published = none → r ∈ get_posts db (some cutoff) none)
    ∧ List.Pairwise (fun a b => a.published = none → b.published = none)
        (get_posts db (some cutoff) none) := by
  constructor
  · intro r hr hnull
    unfold get_posts
    apply (List.mergeSort_perm _ row_order).mem_iff.mpr
    apply List.mem_filter.mpr
    refine ⟨hr, ?_⟩
    rw [hnull]
    rfl
  · have hsorted := List.sorted_mergeSort row_order_trans row_order_total
      (db.filter (fun r =>
        (match some cutoff with
         | none => true
         | some c =>
           match r.published with
           | none => true
           | some pubd => decide (c ≤ pubd))
        && (match (none : Option String) with
            | none => true
            | some s => if s = "" then true else r.source_name == s)))
    apply hsorted.imp
    intro a b hab hnull
    simp only [row_order, Bool.or_eq_true, Bool.and_eq_true, decide_eq_true_eq] at hab
    have ha : row_null_flag a = 1 := by simp [row_null_flag, hnull]
    have hb : row_null_flag b ≤ 1 := by
      unfold row_null_flag
      split
      · omega
      · omega
    have hbe : row_null_flag b = 1 := by
      rcases hab with h | ⟨he, _⟩
      · omega
      · omega
    unfold row_null_flag at hbe
    by_cases hc : b.published = none
    · exact hc
    · rw [if_neg hc] at hbe
      cases hbe

/-- A two-row table (one dated, one NULL-dated) for the C10 witness. -/
def rowDated : Row :=
  { url := "https://e.com/d", title := "d", author := "a",
    published := some "2026-01-05T00:00:00+00:00", summary := "", likes := none,
    comments := none, source_name := "s", is_read := false,
    first_seen := "2026-01-05", last_seen := "2026-01-05" }

def rowNull : Row :=
  { url := "https://e.com/n", title := "n", author := "a", published := none,
    summary := "", likes := none, comments := none, source_name := "s",
    is_read := false, first_seen := "2026-01-05", last_seen := "2026-01-05" }

/-- Witness for C10 at the concrete two-row table. -/
theorem get_posts_keeps_null_dates_witness :
    rowNull ∈ [rowDated, rowNull]
    ∧ rowNull.published = none
    ∧ rowNull ∈ get_posts [rowDated, rowNull] (some "2026-01-04T00:00:00+00:00") none
    ∧ List.Pairwise (fun a b => a.published = none → b.published = none)
        (get_posts [rowDated, rowNull] (some "2026-01-04T00:00:00+00:00") none) :=
  ⟨by decide, rfl,
   (get_posts_keeps_null_dates [rowDated, rowNull] "2026-01-04T00:00:00+00:00").1
     rowNull (by decide) rfl,
   (get_posts_keeps_null_dates [rowDated, rowNull] "2026-01-04T00:00:00+00:00").2⟩
